import Mathlib

/-!
Verification of the block-synchronization and operation-queue engine of the
athena-ai note-taking application.

The Lean definitions below are a shallow embedding of:
  * `src/lib/store/operations.store.ts`  (operation queue: `addOperation`,
    `addOperations`, `flushOperations`, `chunkArray`, `handleDeleteAll`),
  * `src/lib/store/block-cache.store.ts` (block identity cache:
    `getBlockId`, `setBlockId`),
  * `src/lib/firebase/services/node.service.ts` lines 1082-1354
    (`syncPageBlocks`, the content differencer).

JavaScript numbers used as `order` keys are modelled as rationals (`ℚ`);
the tolerances `0.001` and `0.0001` of the source are carried over exactly.
JavaScript `Map` objects are modelled as association lists with
insert-or-overwrite-in-place semantics (`assocSet`), matching `Map.set`,
and insertion-order iteration.  The random `generateBlockId` is modelled
as an injected supply `gen : ℕ → String` consumed left to right.
-/

namespace Athena

/-- A persisted block as read back from the store (the fields of a Firestore
node document that `syncPageBlocks` inspects: `id`, `type`, `text`,
`parentId`, `order`). -/
structure Node where
  id : String
  type : String
  text : Option String
  parentId : String
  order : ℚ
  deriving DecidableEq

/-- The draft written by a `create` operation
(`{ type, text, parentId, order, refs, createdBy, _v: 1 }` in the source;
`ver` models the `_v` schema-version field). -/
structure NodeDraft where
  type : String
  text : String
  parentId : String
  order : ℚ
  refs : List String
  createdBy : String
  ver : ℕ
  deriving DecidableEq

/-- A partial field patch carried by an `update` operation.  The differencer
only ever emits `{ text: ... }` or `{ order: ... }` deltas; a `none` field is
absent from the patch. -/
structure Delta where
  text : Option String := none
  order : Option ℚ := none
  deriving DecidableEq

/-- The `Operation` union type of `src/lib/types/operations.ts`. -/
inductive Operation where
  | create (nodeId workspaceId : String) (node : NodeDraft)
  | update (nodeId workspaceId : String) (delta : Delta)
  | delete (nodeId workspaceId : String)
  | deleteAll (pageId workspaceId : String)
  deriving DecidableEq

/-- `op.workspaceId` (present on every variant of the union). -/
def Operation.workspaceId : Operation → String
  | .create _ w _ => w
  | .update _ w _ => w
  | .delete _ w => w
  | .deleteAll _ w => w

/-- `op.kind === 'deleteAll'`. -/
def Operation.isDeleteAll : Operation → Bool
  | .deleteAll _ _ => true
  | _ => false

/-- `op.kind === 'delete'`. -/
def Operation.isDelete : Operation → Bool
  | .delete _ _ => true
  | _ => false

/-- `op.kind === 'create'`. -/
def Operation.isCreate : Operation → Bool
  | .create _ _ _ => true
  | _ => false

/-- `op.kind === 'update'`. -/
def Operation.isUpdate : Operation → Bool
  | .update _ _ _ => true
  | _ => false

/-- Association-list lookup, modelling JavaScript `Map.get` (the maps built
by the engine keep their keys unique, see `assocSet`). -/
def assocGet {α β : Type} [DecidableEq α] : List (α × β) → α → Option β
  | [], _ => none
  | e :: m, k => if e.1 = k then some e.2 else assocGet m k

/-- Association-list insert-or-overwrite, modelling JavaScript `Map.set`:
an existing key is updated in place (keeping its position), a new key is
appended (insertion order). -/
def assocSet {α β : Type} [DecidableEq α] : List (α × β) → α → β → List (α × β)
  | [], k, v => [(k, v)]
  | e :: m, k, v => if e.1 = k then (k, v) :: m else e :: assocSet m k v

/-! ## Block Identity Cache (`src/lib/store/block-cache.store.ts`)

`blockCache : Map<string, Map<number, string>>` maps
`pageId -> order -> blockId`.  The differencer only queries and sets integer
positions, so the inner keys are `ℕ`. -/

/-- The `blockCache` state of the block-cache store. -/
abbrev BlockCache : Type := List (String × List (ℕ × String))

/-- `getBlockId(pageId, order)`: `blockCache.get(pageId)?.get(order)`. -/
def getBlockId (c : BlockCache) (pageId : String) (order : ℕ) : Option String :=
  match assocGet c pageId with
  | some inner => assocGet inner order
  | none => none

/-- `setBlockId(pageId, order, blockId)`: creates the page map if absent,
then sets `order -> blockId`. -/
def setBlockId (c : BlockCache) (pageId : String) (order : ℕ) (blockId : String) :
    BlockCache :=
  match assocGet c pageId with
  | some inner => assocSet c pageId (assocSet inner order blockId)
  | none => assocSet c pageId [(order, blockId)]

/-- The empty block cache (fresh session / after `clearAllCache`). -/
def emptyCache : BlockCache := []

/-! ## Operation Queue (`src/lib/store/operations.store.ts`) -/

/-- `FLUSH_DELAY = 250` (ms debounce). -/
def FLUSH_DELAY : ℕ := 250

/-- `MAX_BATCH_SIZE = 400`. -/
def MAX_BATCH_SIZE : ℕ := 400

/-- The zustand store state `{ operations, flushTimer, isProcessing }`.
`flushTimer` is modelled as the absolute time (ms) at which the armed
timeout fires (`none` = no timer recorded).  `flights` is a history
variable recording, for each flush that actually started (passed the
`isProcessing`/empty guards), the queue snapshot it carried; it has no
counterpart in the store state and exists only so theorems can talk about
which flushes the code performed. -/
structure QueueState where
  operations : List Operation
  flushTimer : Option ℕ
  isProcessing : Bool
  flights : List (List Operation)
  deriving DecidableEq

/-- The initial store state (`operations: [], flushTimer: null,
isProcessing: false`). -/
def initialQueue : QueueState :=
  { operations := [], flushTimer := none, isProcessing := false, flights := [] }

/-- A whole `flushOperations()` call that runs to completion successfully,
viewed atomically: it returns unchanged when `isProcessing` is set or the
queue is empty (the two early-return guards), and otherwise writes the
batches and then executes `set({ operations: [], isProcessing: false,
flushTimer: null })`. -/
def flushAtomic (s : QueueState) : QueueState :=
  if s.isProcessing then s
  else if s.operations = [] then s
  else
    { operations := [], flushTimer := none, isProcessing := false,
      flights := s.flights ++ [s.operations] }

/-- The synchronous prefix of `flushOperations()` up to (and including)
`set({ isProcessing: true })`: the guards run, and if the flush proceeds it
snapshots `state.operations` (recorded in `flights`). -/
def flushBeginState (s : QueueState) : QueueState :=
  if s.isProcessing then s
  else if s.operations = [] then s
  else { s with isProcessing := true, flights := s.flights ++ [s.operations] }

/-- The success epilogue of `flushOperations()`:
`set({ operations: [], isProcessing: false, flushTimer: null })`.
Note it clears the *current* `operations` list wholesale, not merely the
snapshot the flush wrote. -/
def flushSuccessEnd (s : QueueState) : QueueState :=
  { s with operations := [], isProcessing := false, flushTimer := none }

/-- The catch branch of `flushOperations()`: `set({ isProcessing: false })`
only — operations are kept in the queue for retry and no timer is armed. -/
def flushFailEnd (s : QueueState) : QueueState :=
  { s with isProcessing := false }

/-- `addOperations(ops)` invoked at time `now`: clears any existing timer,
appends `ops`, arms a fresh `FLUSH_DELAY` timer, then — if the queue
reached `MAX_BATCH_SIZE` — calls `flushOperations()` immediately (modelled
here as the atomic successful flush; its guards still apply). -/
def addOperationsAt (s : QueueState) (now : ℕ) (ops : List Operation) : QueueState :=
  let s1 : QueueState :=
    { s with operations := s.operations ++ ops,
             flushTimer := some (now + FLUSH_DELAY) }
  if MAX_BATCH_SIZE ≤ s1.operations.length then flushAtomic s1 else s1

/-- `addOperation(op)` invoked at time `now` (identical body with a single
operation appended). -/
def addOperationAt (s : QueueState) (now : ℕ) (op : Operation) : QueueState :=
  let s1 : QueueState :=
    { s with operations := s.operations ++ [op],
             flushTimer := some (now + FLUSH_DELAY) }
  if MAX_BATCH_SIZE ≤ s1.operations.length then flushAtomic s1 else s1

/-- The armed timeout firing: the timeout is spent (deadline dropped) and
its callback calls `flushOperations()`. -/
def timerFire (s : QueueState) : QueueState :=
  flushAtomic { s with flushTimer := none }

/-- One external enqueue event `(t, ops)` processed at its timestamp: if the
armed timer's deadline has passed by time `t` the timeout fires first, then
`addOperations(ops)` runs at `t`. -/
def stepEvent (s : QueueState) (e : ℕ × List Operation) : QueueState :=
  let s1 :=
    match s.flushTimer with
    | some d => if d ≤ e.1 then timerFire s else s
    | none => s
  addOperationsAt s1 e.1 e.2

/-- Run a timed trace of enqueue events. -/
def runTrace (s : QueueState) (events : List (ℕ × List Operation)) : QueueState :=
  events.foldl stepEvent s

/-- `withinDebounceB tprev events` holds when every event arrives no earlier
than its predecessor and strictly within `FLUSH_DELAY` of it. -/
def withinDebounceB : ℕ → List (ℕ × List Operation) → Bool
  | _, [] => true
  | tprev, (t, _) :: rest =>
    decide (tprev ≤ t) && decide (t < tprev + FLUSH_DELAY) && withinDebounceB t rest

/-- All operations carried by a trace, in order. -/
def joinedOps (events : List (ℕ × List Operation)) : List Operation :=
  (events.map Prod.snd).flatten

/-- The timestamp of the last event (defaulting to `t0`). -/
def lastTime (t0 : ℕ) (events : List (ℕ × List Operation)) : ℕ :=
  events.foldl (fun _ e => e.1) t0

/-- The `chunkArray` helper of `operations.store.ts`:
`for (let i = 0; i < array.length; i += size) chunks.push(array.slice(i, i + size))`.
(The source only calls it with `size = MAX_BATCH_SIZE`; a zero size is
mapped to no chunks so the recursion is well founded.) -/
def chunkArray {α : Type} : List α → ℕ → List (List α)
  | [], _ => []
  | a :: l, size =>
    if size = 0 then []
    else (a :: l).take size :: chunkArray ((a :: l).drop size) size
termination_by l _s => l.length
decreasing_by
  simp only [List.length_drop, List.length_cons]
  omega

/-- One observable store interaction performed by `flushOperations`:
either a `handleDeleteAll(workspaceId, pageId)` fan-out call or a
`batch.commit()` of the listed batched operations. -/
inductive FlushAction where
  | runDeleteAll (workspaceId pageId : String)
  | commitBatch (ops : List Operation)
  deriving DecidableEq

/-- Whether an action is a `handleDeleteAll` call. -/
def FlushAction.isRunDeleteAll : FlushAction → Bool
  | .runDeleteAll _ _ => true
  | _ => false

/-- The store interactions of one chunk inside `flushOperations`: the
chunk's `deleteAll` operations are executed first (`handleDeleteAll` each),
then the remaining create/update/delete operations are committed as one
batch — but only when there are any (`if (otherOps.length > 0)`). -/
def chunkTrace (chunk : List Operation) : List FlushAction :=
  let deleteAllOps := chunk.filter (fun op => op.isDeleteAll)
  let otherOps := chunk.filter (fun op => !op.isDeleteAll)
  (deleteAllOps.filterMap fun op =>
    match op with
    | .deleteAll pageId workspaceId => some (.runDeleteAll workspaceId pageId)
    | _ => none)
  ++ (if 0 < otherOps.length then [FlushAction.commitBatch otherOps] else [])

/-- The workspace ids of the queued operations in first-occurrence order —
the iteration order of the `operationsByWorkspace` JavaScript `Map`. -/
def workspaceIds (ops : List Operation) : List String :=
  ops.foldl (fun acc op =>
    if op.workspaceId ∈ acc then acc else acc ++ [op.workspaceId]) []

/-- The full sequence of store interactions of one `flushOperations` run
over the snapshot `ops`: group by workspace (insertion order), chunk each
group to `MAX_BATCH_SIZE`, and emit each chunk's trace. -/
def flushTrace (ops : List Operation) : List FlushAction :=
  ((workspaceIds ops).map fun w =>
    ((chunkArray (ops.filter fun op => op.workspaceId = w) MAX_BATCH_SIZE).map
      chunkTrace).flatten).flatten

/-- The batched hard-delete commits performed by `handleDeleteAll` for the
child blocks it queried: none when no children exist
(`if (blocks.length === 0) return`), otherwise one commit per
`MAX_BATCH_SIZE` chunk listing the deleted block ids. -/
def handleDeleteAllCommits (children : List Node) : List (List String) :=
  if children = [] then []
  else (chunkArray children MAX_BATCH_SIZE).map (fun chunk => chunk.map (·.id))

/-! ## Content Differencer (`syncPageBlocks`, node.service.ts 1082-1354) -/

/-- One entry of the editor snapshot `content: any[]`.  `paragraph`'s
payload is `item.content` (possibly `undefined`, hence `Option`);
`bulletList`'s payload is `item.items`.  Items of any other shape are
skipped by the differencer and collapse to `other`. -/
inductive ContentItem where
  | paragraph (content : Option String)
  | bulletList (items : List String)
  | other
  deriving DecidableEq

/-- The empty-content shortcut test of `syncPageBlocks`:
`content.length === 0 || (content.length === 1 &&
content[0].type === 'paragraph' && !content[0].content)`. -/
def isEmptyContent : List ContentItem → Bool
  | [] => true
  | [ContentItem.paragraph none] => true
  | [ContentItem.paragraph (some c)] => c = ""
  | _ => false

/-- JavaScript `c || ''` for a string `c`. -/
def jsOrEmpty (c : String) : String :=
  if c = "" then "" else c

/-- JavaScript `c.trim()`: strips leading and trailing whitespace.
(Defined over the character list so it evaluates by reduction;
`String.trim` of the core library is extensionally the same but is
defined by well-founded recursion.) -/
def jsTrim (c : String) : String :=
  String.mk (((c.data.dropWhile Char.isWhitespace).reverse.dropWhile
    Char.isWhitespace).reverse)

/-- `processedOrders.add(x)` on the `Set<number>` (kept as a duplicate-free
list in insertion order). -/
def addToSet (s : List ℚ) (x : ℚ) : List ℚ :=
  if x ∈ s then s else s ++ [x]

/-- The mutable state threaded through the `for` loop of `syncPageBlocks`:
the `processedOrders` set, the `operations` array, the block cache (mutated
via `setBlockId`), and the index of the next fresh block id to draw from
the id supply (modelling successive `generateBlockId()` calls). -/
structure SyncState where
  processedOrders : List ℚ
  operations : List Operation
  cache : BlockCache
  nextId : ℕ
  deriving DecidableEq

/-- The map values, `Array.from(existingBlockMap.values())`. -/
def mapValues (m : List (ℚ × Node)) : List Node := m.map (·.2)

/-- `new Map(existingBlocks.map(b => [b.order, b]))`. -/
def buildMap (blocks : List Node) : List (ℚ × Node) :=
  blocks.foldl (fun m b => assocSet m b.order b) []

/-- Stable insertion of a block into a list sorted by ascending order key. -/
def insertByOrder (b : Node) : List Node → List Node
  | [] => [b]
  | x :: xs => if x.order ≤ b.order then x :: insertByOrder b xs else b :: x :: xs

/-- `.sort((a, b) => a.order - b.order)` (stable). -/
def sortByOrder (l : List Node) : List Node :=
  l.foldl (fun acc b => insertByOrder b acc) []

/-- The else-if branch of the paragraph case taken when there is no cache
hit and no existing paragraph at the position:
`else if (item.content && item.content.trim()) { ... }` — delete a
differently-typed block occupying the slot, reuse a moved paragraph with
identical text if one exists, otherwise create a fresh block and cache its
id. -/
def paragraphFallback (wsId pageId userId : String) (gen : ℕ → String)
    (existingParagraphs : List Node) (existingBlock : Option Node)
    (st : SyncState) (i : ℕ) (c : String) : SyncState :=
  if c ≠ "" ∧ jsTrim c ≠ "" then
    let st :=
      match existingBlock with
      | some b => { st with operations := st.operations ++ [Operation.delete b.id wsId] }
      | none => st
    match existingParagraphs.find? (fun pb =>
        decide (pb.text = some c ∧ pb.order ∉ st.processedOrders)) with
    | some pb =>
      { st with
        operations := st.operations ++
          [Operation.update pb.id wsId { order := some (i : ℚ) }],
        processedOrders := addToSet st.processedOrders pb.order }
    | none =>
      let blockId := gen st.nextId
      { st with
        cache := setBlockId st.cache pageId i blockId,
        operations := st.operations ++
          [Operation.create blockId wsId
            { type := "paragraph", text := c, parentId := pageId,
              order := (i : ℚ), refs := [], createdBy := userId, ver := 1 }],
        nextId := st.nextId + 1 }
  else st

/-- One iteration of the `for (let i = 0; i < content.length; i++)` loop of
`syncPageBlocks` (after `processedOrders.add(i)` at the loop head). -/
def syncStep (wsId pageId userId : String) (gen : ℕ → String)
    (existingBlockMap : List (ℚ × Node)) (existingParagraphs : List Node)
    (st : SyncState) (i : ℕ) (item : ContentItem) : SyncState :=
  let st : SyncState := { st with processedOrders := addToSet st.processedOrders (i : ℚ) }
  match item with
  | ContentItem.paragraph (some c) =>
    let existingBlock := assocGet existingBlockMap (i : ℚ)
    match getBlockId st.cache pageId i with
    | some cachedBlockId =>
      -- cached block id present: always update it
      { st with operations := st.operations ++
          [Operation.update cachedBlockId wsId { text := some (jsOrEmpty c) }] }
    | none =>
      match existingBlock with
      | some b =>
        if b.type = "paragraph" then
          -- update existing block and cache its id; emit only if changed
          let st : SyncState := { st with cache := setBlockId st.cache pageId i b.id }
          if b.text ≠ some c then
            { st with operations := st.operations ++
                [Operation.update b.id wsId { text := some c }] }
          else st
        else
          paragraphFallback wsId pageId userId gen existingParagraphs
            (some b) st i c
      | none =>
        paragraphFallback wsId pageId userId gen existingParagraphs none st i c
  | ContentItem.bulletList items =>
    let bulletListText := String.intercalate "\n" items
    let st : SyncState := { st with processedOrders := addToSet st.processedOrders (i : ℚ) }
    match (mapValues existingBlockMap).find? (fun b =>
        decide (|b.order - (i : ℚ)| < 1/1000 ∧ b.type = "bullet")) with
    | some b =>
      let st : SyncState := { st with cache := setBlockId st.cache pageId i b.id }
      if b.text ≠ some bulletListText then
        { st with operations := st.operations ++
            [Operation.update b.id wsId { text := some bulletListText }] }
      else st
    | none =>
      let st : SyncState :=
        match (mapValues existingBlockMap).find? (fun b =>
            decide (|b.order - (i : ℚ)| < 1/1000 ∧ b.type ≠ "bullet")) with
        | some b =>
          { st with operations := st.operations ++ [Operation.delete b.id wsId] }
        | none => st
      let bulletListId := gen st.nextId
      { st with
        operations := st.operations ++
          [Operation.create bulletListId wsId
            { type := "bullet", text := bulletListText, parentId := pageId,
              order := (i : ℚ), refs := [], createdBy := userId, ver := 1 }],
        nextId := st.nextId + 1 }
  | ContentItem.paragraph none => st
  | ContentItem.other => st

/-- The whole position loop of `syncPageBlocks`. -/
def syncLoop (wsId pageId userId : String) (gen : ℕ → String)
    (existingBlockMap : List (ℚ × Node)) (existingParagraphs : List Node) :
    SyncState → ℕ → List ContentItem → SyncState
  | st, _, [] => st
  | st, i, item :: rest =>
    syncLoop wsId pageId userId gen existingBlockMap existingParagraphs
      (syncStep wsId pageId userId gen existingBlockMap existingParagraphs st i item)
      (i + 1) rest

/-- The trailing cleanup of `syncPageBlocks` for a single map entry: delete
the block unless its order is within `0.0001` of some processed order. -/
def cleanupEntry (wsId : String) (processedOrders : List ℚ) (e : ℚ × Node) :
    Option Operation :=
  if processedOrders.any (fun p => decide (|e.1 - p| < 1/10000)) then none
  else some (Operation.delete e.2.id wsId)

/-- The result of one `syncPageBlocks` call (the `useQueue = true` path):
whether the parent node's legacy `content` field was stripped
(`updateDoc(nodeRef, { content: deleteField() })`), the operations handed
to `addOperations` (a sole `deleteAll` in the empty-content shortcut), and
the block cache as mutated during the run. -/
structure SyncResult where
  strippedContent : Bool
  operations : List Operation
  cache : BlockCache
  deriving DecidableEq

/-- `syncPageBlocks(workspaceId, pageId, content, userId)` with
`useQueue = true`.  `rootContent` is the parent node's `content` field as
stored (`none` when absent), `existingBlocks` the blocks returned by
`getBlocks` (ordered by ascending `order`), `cache` the block-cache state,
and `gen` the fresh-id supply standing in for `generateBlockId`. -/
def syncPageBlocks (wsId pageId : String) (content : List ContentItem)
    (userId : String) (rootContent : Option String)
    (existingBlocks : List Node) (cache : BlockCache) (gen : ℕ → String) :
    SyncResult :=
  if isEmptyContent content then
    -- empty or single empty paragraph: queue a lone deleteAll and return
    { strippedContent := false,
      operations := [Operation.deleteAll pageId wsId],
      cache := cache }
  else
    -- strip the legacy content field from the parent node if present
    let strippedContent := rootContent.isSome
    let existingBlockMap := buildMap existingBlocks
    let existingParagraphs :=
      sortByOrder (existingBlocks.filter (fun b => b.type = "paragraph"))
    let st := syncLoop wsId pageId userId gen existingBlockMap existingParagraphs
      { processedOrders := [], operations := [], cache := cache, nextId := 0 }
      0 content
    let cleanup := existingBlockMap.filterMap (cleanupEntry wsId st.processedOrders)
    { strippedContent := strippedContent,
      operations := st.operations ++ cleanup,
      cache := st.cache }

/-! ## Store semantics of applying queued operations -/

/-- Apply an update delta to a stored block (Firestore `batch.update` merge
of the emitted `{ text }` / `{ order }` patches). -/
def applyDelta (b : Node) (d : Delta) : Node :=
  { b with
    text := match d.text with | some t => some t | none => b.text,
    order := match d.order with | some o => o | none => b.order }

/-- Apply one flushed operation to the stored block set. -/
def applyOp (blocks : List Node) : Operation → List Node
  | .create nodeId _ draft =>
    blocks ++ [{ id := nodeId, type := draft.type, text := some draft.text,
                 parentId := draft.parentId, order := draft.order }]
  | .update nodeId _ delta =>
    blocks.map (fun b => if b.id = nodeId then applyDelta b delta else b)
  | .delete nodeId _ => blocks.filter (fun b => b.id ≠ nodeId)
  | .deleteAll pageId _ => blocks.filter (fun b => b.parentId ≠ pageId)

/-- Apply a list of flushed operations in order. -/
def applyOps (blocks : List Node) (ops : List Operation) : List Node :=
  ops.foldl applyOp blocks

/-! ## The blocks created by a first sync against an empty store -/

/-- The block (type, text) that an item materialises as, when it
materialises at all: a paragraph only when its content is non-empty and
not whitespace-only, a bullet group always (as one block whose text is the
newline-joined items), anything else never. -/
def itemBlock : ContentItem → Option (String × String)
  | ContentItem.paragraph (some c) =>
    if c ≠ "" ∧ jsTrim c ≠ "" then some ("paragraph", c) else none
  | ContentItem.paragraph none => none
  | ContentItem.bulletList items => some ("bullet", String.intercalate "\n" items)
  | ContentItem.other => none

/-- The `(blockId, draft)` pairs created by syncing `content` against an
empty store, positions starting at `i` and fresh ids at index `k`. -/
def createdList (pageId userId : String) (gen : ℕ → String) :
    ℕ → ℕ → List ContentItem → List (String × NodeDraft)
  | _, _, [] => []
  | i, k, item :: rest =>
    match itemBlock item with
    | some (ty, tx) =>
      (gen k, { type := ty, text := tx, parentId := pageId, order := (i : ℚ),
                refs := [], createdBy := userId, ver := 1 }) ::
        createdList pageId userId gen (i + 1) (k + 1) rest
    | none => createdList pageId userId gen (i + 1) k rest

/-- The create operations corresponding to `createdList`. -/
def createOps (wsId : String) (l : List (String × NodeDraft)) : List Operation :=
  l.map (fun e => Operation.create e.1 wsId e.2)

/-- The stored block a created draft becomes. -/
def draftNode (e : String × NodeDraft) : Node :=
  { id := e.1, type := e.2.type, text := some e.2.text,
    parentId := e.2.parentId, order := e.2.order }

/-- The stored block set after flushing a first sync of `content` against
an empty store. -/
def createdNodes (pageId userId : String) (gen : ℕ → String)
    (i k : ℕ) (content : List ContentItem) : List Node :=
  (createdList pageId userId gen i k content).map draftNode

/-- First-match lookup of a block by exact order key. -/
def nodeAt : List Node → ℚ → Option Node
  | [], _ => none
  | b :: l, q => if b.order = q then some b else nodeAt l q

/-- A deterministic stand-in for the random `generateBlockId` supply, used
in concrete scenarios. -/
def genStub : ℕ → String := fun k => "blk_" ++ Nat.repr k

/-! ## Concrete fixtures for scenarios -/

/-- A sample queued operation. -/
def opA : Operation := Operation.update "block_a" "w" {}

/-- A second sample queued operation. -/
def opB : Operation := Operation.update "block_b" "w" {}

/-- A third sample queued operation. -/
def opC : Operation := Operation.update "block_c" "w" {}

/-- A stored bullet block sitting at order 0. -/
def bulletNode : Node :=
  { id := "blk_bul", type := "bullet", text := some "x", parentId := "p", order := 0 }

/-- The loop state at entry of `syncPageBlocks`' position loop. -/
def st0 : SyncState :=
  { processedOrders := [], operations := [], cache := emptyCache, nextId := 0 }

/-- `MatchesFromN g i items` states that the order-keyed block lookup `g`
agrees, from position `i` on, with what the items materialise as: position
`i + j` holds a block of the type and text prescribed by `itemBlock` of the
`j`-th item (for some id), and no block when the item materialises none. -/
def MatchesFromN (g : ℕ → Option Node) : ℕ → List ContentItem → Prop
  | _, [] => True
  | i, item :: rest =>
    (match itemBlock item with
     | some (ty, tx) =>
       ∃ b, g i = some b ∧ b.type = ty ∧ b.text = some tx ∧ b.order = (i : ℚ)
     | none => g i = none) ∧
    MatchesFromN g (i + 1) rest

/-! ## Helper lemmas -/

/-- Every key of `assocSet m k v` is a key of `m` or is `k`. -/
theorem assocSet_mem {α β : Type} [DecidableEq α] (m : List (α × β)) (k : α) (v : β)
    (e : α × β) (he : e ∈ assocSet m k v) : e ∈ m ∨ e.1 = k := by
  induction m with
  | nil =>
    simp [assocSet] at he
    simp [he]
  | cons hd tl ih =>
    simp only [assocSet] at he
    by_cases hk : hd.1 = k
    · simp [hk] at he
      rcases he with he | he
      · right; simp [he]
      · left; simp [he]
    · simp [hk] at he
      rcases he with he | he
      · left; simp [he]
      · rcases ih he with h | h
        · left; simp [h]
        · right; exact h

/-- Generalized key lemma for the `buildMap` fold. -/
theorem foldl_assocSet_mem (e : ℚ × Node) :
    ∀ (blocks : List Node) (m : List (ℚ × Node)),
      e ∈ blocks.foldl (fun m b => assocSet m b.order b) m →
      e ∈ m ∨ ∃ b ∈ blocks, e.1 = b.order := by
  intro blocks
  induction blocks with
  | nil => intro m hm; exact Or.inl (by simpa using hm)
  | cons hd tl ih =>
    intro m hm
    rcases ih (assocSet m hd.order hd) (by simpa using hm) with h | h
    · rcases assocSet_mem m hd.order hd e h with h1 | h1
      · exact Or.inl h1
      · exact Or.inr ⟨hd, by simp, h1⟩
    · rcases h with ⟨b, hb, hb1⟩
      exact Or.inr ⟨b, by simp [hb], hb1⟩

/-- Every key of `buildMap blocks` is the order of one of the blocks. -/
theorem buildMap_key (blocks : List Node) (e : ℚ × Node) (he : e ∈ buildMap blocks) :
    ∃ b ∈ blocks, e.1 = b.order := by
  rcases foldl_assocSet_mem e blocks [] he with h0 | h0
  · simp at h0
  · exact h0

/-! ## C1 -/

/-- C1: the claim says operations enqueued while a flush is in progress
survive a successful flush.  The code's success epilogue executes
`set({ operations: [] })`, clearing the whole queue: at the concrete
failing input below, `opB` is enqueued after the flush snapshot `[opA]`
is taken, is present in the queue while the flush is in flight, and is
gone (never flushed) after the flush completes successfully. -/
theorem c1_successful_flush_drops_midflight_ops :
    (flushBeginState
      { operations := [opA], flushTimer := none, isProcessing := false,
        flights := [] }).isProcessing = true ∧
    opB ∈ (addOperationAt
      (flushBeginState
        { operations := [opA], flushTimer := none, isProcessing := false,
          flights := [] }) 0 opB).operations ∧
    (flushSuccessEnd (addOperationAt
      (flushBeginState
        { operations := [opA], flushTimer := none, isProcessing := false,
          flights := [] }) 0 opB)).operations = [] := by
  decide

/-! ## C7 -/

/-- C7: a flush that starts from an idle queue and fails leaves every
queued operation in the queue, resets `isProcessing` to `false`, and does
not arm any retry timer (the `flushTimer` field is exactly what it was);
re-attempting is left to the next enqueue or an explicit
`flushOperations` call. -/
theorem c7_flush_failure_preserves_queue (s : QueueState)
    (h : s.isProcessing = false) :
    (flushFailEnd (flushBeginState s)).operations = s.operations ∧
    (flushFailEnd (flushBeginState s)).isProcessing = false ∧
    (flushFailEnd (flushBeginState s)).flushTimer = s.flushTimer := by
  by_cases he : s.operations = [] <;>
    simp [flushBeginState, flushFailEnd, h, he]

/-- Witness for C7 at a concrete one-operation queue. -/
theorem c7_flush_failure_preserves_queue_witness :
    (flushFailEnd (flushBeginState
      { operations := [opA], flushTimer := some 17, isProcessing := false,
        flights := [] })).operations = [opA] ∧
    (flushFailEnd (flushBeginState
      { operations := [opA], flushTimer := some 17, isProcessing := false,
        flights := [] })).isProcessing = false ∧
    (flushFailEnd (flushBeginState
      { operations := [opA], flushTimer := some 17, isProcessing := false,
        flights := [] })).flushTimer = some 17 :=
  c7_flush_failure_preserves_queue
    { operations := [opA], flushTimer := some 17, isProcessing := false,
      flights := [] } rfl

/-! ## C4 -/

/-- C4 counterexample: the claim says an empty snapshot produces zero
operations when no prior blocks existed.  With no existing blocks, the
code still queues one `deleteAll` operation (the shortcut never consults
the existing block set). -/
theorem c4_deleteall_queued_without_prior_blocks_cex :
    (syncPageBlocks "w" "p" [] "u" none [] emptyCache genStub).operations =
      [Operation.deleteAll "p" "w"] ∧
    (syncPageBlocks "w" "p" [] "u" none [] emptyCache genStub).operations ≠ [] := by
  decide

/-- C4 amended: an empty snapshot, or a single empty paragraph,
short-circuits to exactly one `DeleteAll` operation regardless of whether
prior blocks existed — never per-block delete operations — and the
flush-time `handleDeleteAll` performs no batch commits when the page has
no child blocks. -/
theorem c4_empty_shortcut_amended (w p u : String) (rc : Option String)
    (blocks : List Node) (cache : BlockCache) (gen : ℕ → String)
    (content : List ContentItem) (h : isEmptyContent content = true) :
    (syncPageBlocks w p content u rc blocks cache gen).operations =
      [Operation.deleteAll p w] ∧
    (∀ op ∈ (syncPageBlocks w p content u rc blocks cache gen).operations,
      op.isDelete = false) ∧
    handleDeleteAllCommits [] = [] := by
  refine ⟨?_, ?_, rfl⟩
  · simp [syncPageBlocks, h]
  · simp [syncPageBlocks, h, Operation.isDelete]

/-- Witness for C4 at the single-empty-paragraph snapshot with prior
blocks present. -/
theorem c4_empty_shortcut_amended_witness :
    isEmptyContent [ContentItem.paragraph (some "")] = true ∧
    (syncPageBlocks "w" "p" [ContentItem.paragraph (some "")] "u" none
      [bulletNode] emptyCache genStub).operations = [Operation.deleteAll "p" "w"] :=
  ⟨by decide,
   (c4_empty_shortcut_amended "w" "p" "u" none [bulletNode] emptyCache genStub
     [ContentItem.paragraph (some "")] (by decide)).1⟩

/-! ## C8 -/

/-- C8 counterexample: the claim says the root's content payload is
stripped on every sync, including when the snapshot is empty or a single
empty paragraph.  On those snapshots the code returns right after queueing
`deleteAll`, before the content-field cleanup: with a root carrying the
non-empty content `"legacy"`, no strip happens. -/
theorem c8_shortcut_skips_root_strip_cex :
    (syncPageBlocks "w" "p" [] "u" (some "legacy") [] emptyCache
      genStub).strippedContent = false ∧
    (syncPageBlocks "w" "p" [ContentItem.paragraph (some "")] "u"
      (some "legacy") [] emptyCache genStub).strippedContent = false := by
  decide

/-- C8 amended: on every sync whose snapshot is *not* the empty-content
shortcut, the sync strips the root's content field exactly when the root
record carries one (the code tests `content !== undefined`, which covers
every non-empty payload); the shortcut path returns early and never
strips. -/
theorem c8_root_content_strip_amended (w p u : String)
    (content : List ContentItem) (rc : Option String) (blocks : List Node)
    (cache : BlockCache) (gen : ℕ → String)
    (h : isEmptyContent content = false) :
    (syncPageBlocks w p content u rc blocks cache gen).strippedContent =
      rc.isSome := by
  simp [syncPageBlocks, h]

/-- Witness for C8 at a one-paragraph snapshot and a root carrying the
non-empty content `"legacy"`. -/
theorem c8_root_content_strip_amended_witness :
    isEmptyContent [ContentItem.paragraph (some "hi")] = false ∧
    (syncPageBlocks "w" "p" [ContentItem.paragraph (some "hi")] "u"
      (some "legacy") [] emptyCache genStub).strippedContent = true :=
  ⟨by decide,
   (c8_root_content_strip_amended "w" "p" "u" [ContentItem.paragraph (some "hi")]
     (some "legacy") [] emptyCache genStub (by decide)).trans rfl⟩

/-! ## C9 -/

/-- C9: syncing `[{paragraph:"A"}, {bullet_list:["x","y"]}]` against a
document with no existing blocks yields exactly two creates: a paragraph
block with text `"A"` at order 0 and one bullet-type block at order 1
whose text is the newline-joined `"x\ny"`. -/
theorem c9_paragraph_and_bullet_snapshot (w p u : String) (gen : ℕ → String)
    (rc : Option String) :
    (syncPageBlocks w p
      [ContentItem.paragraph (some "A"), ContentItem.bulletList ["x", "y"]]
      u rc [] emptyCache gen).operations =
    [Operation.create (gen 0) w
      { type := "paragraph", text := "A", parentId := p, order := 0,
        refs := [], createdBy := u, ver := 1 },
     Operation.create (gen 1) w
      { type := "bullet", text := "x\ny", parentId := p, order := 1,
        refs := [], createdBy := u, ver := 1 }] := by
  rfl



/-! ## C10 -/

/-- C10: at a position with no cache entry and no existing paragraph at
that exact order, a paragraph item whose content is empty or
whitespace-only produces no operation at all — no create, and no delete of
a differently-typed block sitting at that order — while the position is
still added to `processedOrders`; and the trailing cleanup never deletes a
block whose order is within the `0.0001` tolerance of a processed
position. -/
theorem c10_blank_paragraph_produces_no_operation :
    (∀ (w p u : String) (gen : ℕ → String) (map : List (ℚ × Node))
        (paras : List Node) (st : SyncState) (i : ℕ) (c : String),
        getBlockId st.cache p i = none →
        (∀ b, assocGet map (i : ℚ) = some b → b.type ≠ "paragraph") →
        jsTrim c = "" →
        syncStep w p u gen map paras st i (ContentItem.paragraph (some c)) =
          { st with processedOrders := addToSet st.processedOrders (i : ℚ) }) ∧
    (∀ (w : String) (processed : List ℚ) (i : ℕ) (e : ℚ × Node),
        (i : ℚ) ∈ processed → |e.1 - (i : ℚ)| < 1/10000 →
        cleanupEntry w processed e = none) := by
  constructor
  · intro w p u gen map paras st i c hc hm htrim
    have hcond : ¬(c ≠ "" ∧ jsTrim c ≠ "") := fun h => h.2 htrim
    cases hb : assocGet map (i : ℚ) with
    | none => simp [syncStep, hb, hc, paragraphFallback, hcond]
    | some b =>
      have hty : ¬b.type = "paragraph" := hm b hb
      simp [syncStep, hb, hc, paragraphFallback, hcond, hty]
  · intro w processed i e hmem htol
    have hany : processed.any (fun p => decide (|e.1 - p| < 1/10000)) = true := by
      rw [List.any_eq_true]
      exact ⟨(i : ℚ), hmem, by simpa using htol⟩
    unfold cleanupEntry
    rw [if_pos hany]

/-- Witness for C10: a whitespace-only paragraph over a bullet block at
order 0, and the cleanup skip for that same block. -/
theorem c10_blank_paragraph_produces_no_operation_witness :
    syncStep "w" "p" "u" genStub [((0 : ℚ), bulletNode)] [] st0 0
      (ContentItem.paragraph (some " ")) =
      { st0 with processedOrders := [(0 : ℚ)] } ∧
    cleanupEntry "w" [(0 : ℚ)] ((0 : ℚ), bulletNode) = none := by
  constructor
  · have h := c10_blank_paragraph_produces_no_operation.1 "w" "p" "u" genStub
      [((0 : ℚ), bulletNode)] [] st0 0 " " (by decide)
      (by
        intro b hb
        simp [assocGet] at hb
        simp [← hb, bulletNode])
      (by decide)
    simpa [st0, addToSet] using h
  · exact c10_blank_paragraph_produces_no_operation.2 "w" [(0 : ℚ)] 0
      ((0 : ℚ), bulletNode) (by simp) (by norm_num)

/-! ## C3 -/

/-- C3 counterexample: the claim says a cache entry for `(pageId, i)`
forces an Update against the cached id and never a Create at position `i`.
With the cache holding `(p, 0) ↦ "blk_X"` and a bullet-list item at
position 0 over an empty block set, the code emits a Create and no Update:
the bullet branch never consults the cache. -/
theorem c3_bullet_ignores_cache_cex :
    getBlockId (setBlockId emptyCache "p" 0 "blk_X") "p" 0 = some "blk_X" ∧
    ((syncPageBlocks "w" "p" [ContentItem.bulletList ["x"]] "u" none []
        (setBlockId emptyCache "p" 0 "blk_X") genStub).operations.any
      Operation.isCreate) = true ∧
    ((syncPageBlocks "w" "p" [ContentItem.bulletList ["x"]] "u" none []
        (setBlockId emptyCache "p" 0 "blk_X") genStub).operations.any
      Operation.isUpdate) = false := by
  decide

/-- The cache-hit branch of the paragraph case: a cached block id at
`(pageId, i)` makes the step append exactly one unconditional update
against the cached id (`delta` carrying `jsOrEmpty` of the item text). -/
theorem syncStep_cache_hit (w p u : String) (gen : ℕ → String)
    (map : List (ℚ × Node)) (paras : List Node) (st : SyncState) (i : ℕ)
    (c : String) (bid : String) (hcache : getBlockId st.cache p i = some bid) :
    syncStep w p u gen map paras st i (ContentItem.paragraph (some c)) =
      { st with
        processedOrders := addToSet st.processedOrders (i : ℚ),
        operations := st.operations ++
          [Operation.update bid w { text := some (jsOrEmpty c) }] } := by
  simp [syncStep, hcache]

/-- A one-paragraph snapshot with a cache hit at position 0: the sync
emits exactly the update against the cached id and leaves the cache
unchanged, provided every existing block sits within the cleanup tolerance
of order 0 (unchanged structure). -/
theorem sync_single_cached (w p u : String) (gen : ℕ → String)
    (cache : BlockCache) (blocks : List Node) (bid : String) (c : String)
    (rc : Option String) (hcache : getBlockId cache p 0 = some bid)
    (hc : c ≠ "") (hblocks : ∀ b ∈ blocks, |b.order| < 1/10000) :
    (syncPageBlocks w p [ContentItem.paragraph (some c)] u rc blocks cache
      gen).operations = [Operation.update bid w { text := some c }] ∧
    (syncPageBlocks w p [ContentItem.paragraph (some c)] u rc blocks cache
      gen).cache = cache := by
  have hempty : isEmptyContent [ContentItem.paragraph (some c)] = false := by
    simp [isEmptyContent, hc]
  have hjs : jsOrEmpty c = c := by simp [jsOrEmpty, hc]
  have hstep := syncStep_cache_hit w p u gen (buildMap blocks)
    (sortByOrder (blocks.filter (fun b => b.type = "paragraph")))
    { processedOrders := [], operations := [], cache := cache, nextId := 0 }
    0 c bid hcache
  have hclean : (buildMap blocks).filterMap
      (cleanupEntry w (addToSet [] ((0 : ℕ) : ℚ))) = [] := by
    rw [List.filterMap_eq_nil_iff]
    intro e he
    rcases buildMap_key blocks e he with ⟨b, hb, hb1⟩
    have hany : (addToSet [] ((0 : ℕ) : ℚ)).any
        (fun q => decide (|e.1 - q| < 1/10000)) = true := by
      simp only [addToSet, List.not_mem_nil, if_false, List.nil_append,
        List.any_cons, List.any_nil, Bool.or_false, decide_eq_true_eq,
        Nat.cast_zero, sub_zero]
      rw [hb1]
      exact hblocks b hb
    unfold cleanupEntry
    rw [if_pos hany]
  constructor
  · simp only [syncPageBlocks, hempty, Bool.false_eq_true, if_false,
      syncLoop, hstep, hjs, hclean, List.append_nil, List.nil_append]
  · simp only [syncPageBlocks, hempty, Bool.false_eq_true, if_false,
      syncLoop, hstep, hjs, hclean]

/-- C3 amended: for *paragraph* items with defined content, a Block
Identity Cache entry `(pageId, i) → blockId` makes the differencer emit an
Update targeting exactly the cached block id and never a Create for that
position (first conjunct, the general step fact); consequently editing a
paragraph's text twice in a row without changing structure updates the
same cached block id both times and never creates a second block (second
conjunct).  Bullet-list items bypass the cache (see the counterexample),
so the claim's universal form over all item kinds is false. -/
theorem c3_cached_paragraph_update_amended :
    (∀ (w p u : String) (gen : ℕ → String) (map : List (ℚ × Node))
        (paras : List Node) (st : SyncState) (i : ℕ) (c bid : String),
        getBlockId st.cache p i = some bid →
        syncStep w p u gen map paras st i (ContentItem.paragraph (some c)) =
          { st with
            processedOrders := addToSet st.processedOrders (i : ℚ),
            operations := st.operations ++
              [Operation.update bid w { text := some (jsOrEmpty c) }] }) ∧
    (∀ (w p u : String) (gen : ℕ → String) (cache : BlockCache)
        (blocks : List Node) (bid c1 c2 : String) (rc1 rc2 : Option String),
        getBlockId cache p 0 = some bid → c1 ≠ "" → c2 ≠ "" →
        (∀ b ∈ blocks, |b.order| < 1/10000) →
        (syncPageBlocks w p [ContentItem.paragraph (some c1)] u rc1 blocks
          cache gen).operations
          = [Operation.update bid w { text := some c1 }] ∧
        (syncPageBlocks w p [ContentItem.paragraph (some c2)] u rc2
            (applyOps blocks
              (syncPageBlocks w p [ContentItem.paragraph (some c1)] u rc1
                blocks cache gen).operations)
            (syncPageBlocks w p [ContentItem.paragraph (some c1)] u rc1
              blocks cache gen).cache gen).operations
          = [Operation.update bid w { text := some c2 }]) := by
  constructor
  · intro w p u gen map paras st i c bid hcache
    exact syncStep_cache_hit w p u gen map paras st i c bid hcache
  · intro w p u gen cache blocks bid c1 c2 rc1 rc2 hcache hc1 hc2 hblocks
    obtain ⟨hops1, hcache1⟩ :=
      sync_single_cached w p u gen cache blocks bid c1 rc1 hcache hc1 hblocks
    refine ⟨hops1, ?_⟩
    rw [hops1, hcache1]
    have hblocks2 : ∀ b2 ∈ applyOps blocks
        [Operation.update bid w { text := some c1 }], |b2.order| < 1/10000 := by
      intro b2 hb2
      simp only [applyOps, List.foldl_cons, List.foldl_nil, applyOp] at hb2
      rcases List.mem_map.mp hb2 with ⟨b, hb, rfl⟩
      by_cases hid : b.id = bid
      · simpa [hid, applyDelta] using hblocks b hb
      · simpa [hid] using hblocks b hb
    exact (sync_single_cached w p u gen cache _ bid c2 rc2 hcache hc2
      hblocks2).1

/-- Witness for C3: editing `"hello"` to `"hello world"` at cached
position 0 updates `"blk_X"` both times. -/
theorem c3_cached_paragraph_update_amended_witness :
    (syncPageBlocks "w" "p" [ContentItem.paragraph (some "hello")] "u" none []
      (setBlockId emptyCache "p" 0 "blk_X") genStub).operations =
      [Operation.update "blk_X" "w" { text := some "hello" }] ∧
    (syncPageBlocks "w" "p" [ContentItem.paragraph (some "hello world")] "u"
      none
      (applyOps []
        (syncPageBlocks "w" "p" [ContentItem.paragraph (some "hello")] "u"
          none [] (setBlockId emptyCache "p" 0 "blk_X") genStub).operations)
      (syncPageBlocks "w" "p" [ContentItem.paragraph (some "hello")] "u" none
        [] (setBlockId emptyCache "p" 0 "blk_X") genStub).cache
      genStub).operations =
      [Operation.update "blk_X" "w" { text := some "hello world" }] := by
  exact c3_cached_paragraph_update_amended.2 "w" "p" "u" genStub
    (setBlockId emptyCache "p" 0 "blk_X") [] "blk_X" "hello" "hello world"
    none none (by decide) (by decide) (by decide)
    (by intro b hb; simp at hb)

/-- The `workspaceIds` fold leaves the accumulator unchanged when every
operation's workspace is already present. -/
theorem workspaceIds_foldl_const (w : String) :
    ∀ (ops : List Operation) (acc : List String),
      (∀ op ∈ ops, op.workspaceId = w) → w ∈ acc →
      ops.foldl (fun acc op =>
        if op.workspaceId ∈ acc then acc else acc ++ [op.workspaceId]) acc = acc := by
  intro ops
  induction ops with
  | nil => intro acc _ _; rfl
  | cons hd tl ih =>
    intro acc hall hw
    have hhd : hd.workspaceId = w := hall hd (by simp)
    simp only [List.foldl_cons, hhd, if_pos hw]
    exact ih acc (fun op h => hall op (by simp [h])) hw

/-- A non-empty queue whose operations all belong to workspace `w` is
grouped into the single group `[w]`. -/
theorem workspaceIds_single (ops : List Operation) (w : String)
    (hne : ops ≠ []) (hall : ∀ op ∈ ops, op.workspaceId = w) :
    workspaceIds ops = [w] := by
  cases ops with
  | nil => exact absurd rfl hne
  | cons o rest =>
    have ho : o.workspaceId = w := hall o (by simp)
    unfold workspaceIds
    simp only [List.foldl_cons, ho, List.not_mem_nil, if_false, List.nil_append]
    exact workspaceIds_foldl_const w rest [w]
      (fun op h => hall op (by simp [h])) (by simp)

/-- Unfolding `chunkArray` one step on a non-empty list with non-zero
chunk size. -/
theorem chunkArray_cons_eq {α : Type} (l : List α) (size : ℕ)
    (hl : l ≠ []) (hs : size ≠ 0) :
    chunkArray l size = l.take size :: chunkArray (l.drop size) size := by
  cases l with
  | nil => exact absurd rfl hl
  | cons a l => simp [chunkArray, hs]

/-- `chunkTrace` of a chunk containing no `deleteAll` operation is a
single batch commit of the whole chunk. -/
theorem chunkTrace_no_deleteAll (chunk : List Operation)
    (hne : chunk ≠ []) (hnd : ∀ op ∈ chunk, op.isDeleteAll = false) :
    chunkTrace chunk = [FlushAction.commitBatch chunk] := by
  have h1 : chunk.filter (fun op => op.isDeleteAll) = [] := by
    rw [List.filter_eq_nil_iff]
    intro op hop
    simp [hnd op hop]
  have h2 : chunk.filter (fun op => !op.isDeleteAll) = chunk := by
    rw [List.filter_eq_self]
    intro op hop
    simp [hnd op hop]
  have h3 : 0 < chunk.length := List.length_pos.mpr hne
  simp [chunkTrace, h1, h2, h3]



/-- C5: a queue of 900 operations of one workspace with no `deleteAll`
flushes as exactly 3 batch commits of sizes 400, 400 and 100 whose
contents concatenate back to the queue in enqueue order (first conjunct);
and in every chunk's trace all `handleDeleteAll` executions precede the
batch commit (second conjunct). -/
theorem c5_batch_chunking :
    (∀ (ops : List Operation) (w : String),
        ops.length = 900 →
        (∀ op ∈ ops, op.workspaceId = w) →
        (∀ op ∈ ops, op.isDeleteAll = false) →
        flushTrace ops =
          [FlushAction.commitBatch (ops.take 400),
           FlushAction.commitBatch ((ops.drop 400).take 400),
           FlushAction.commitBatch ((ops.drop 400).drop 400)] ∧
        (ops.take 400).length = 400 ∧
        ((ops.drop 400).take 400).length = 400 ∧
        ((ops.drop 400).drop 400).length = 100 ∧
        ops.take 400 ++ ((ops.drop 400).take 400 ++ (ops.drop 400).drop 400)
          = ops) ∧
    (∀ chunk : List Operation, ∃ das cbs,
        chunkTrace chunk = das ++ cbs ∧
        (∀ a ∈ das, a.isRunDeleteAll = true) ∧
        (∀ a ∈ cbs, a.isRunDeleteAll = false)) := by
  constructor
  · intro ops w hlen hall hnd
    have hne : ops ≠ [] := by
      intro h
      rw [h] at hlen
      simp at hlen
    have hfilter : ops.filter (fun op => op.workspaceId = w) = ops := by
      rw [List.filter_eq_self]
      intro op hop
      simp [hall op hop]
    have hl2 : (ops.drop 400).length = 500 := by
      simp [List.length_drop, hlen]
    have hl3 : ((ops.drop 400).drop 400).length = 100 := by
      simp [List.length_drop, hlen]
    have hne2 : ops.drop 400 ≠ [] := by
      intro h
      rw [h] at hl2
      simp at hl2
    have hne3 : (ops.drop 400).drop 400 ≠ [] := by
      intro h
      rw [h] at hl3
      simp at hl3
    have hdrop3 : ((ops.drop 400).drop 400).drop 400 = [] := by
      apply List.drop_eq_nil_of_le
      omega
    have htake3 : ((ops.drop 400).drop 400).take 400 = (ops.drop 400).drop 400 := by
      apply List.take_of_length_le
      omega
    have hchunks : chunkArray ops MAX_BATCH_SIZE =
        [ops.take 400, (ops.drop 400).take 400, (ops.drop 400).drop 400] := by
      have e1 := chunkArray_cons_eq ops 400 hne (by norm_num)
      have e2 := chunkArray_cons_eq (ops.drop 400) 400 hne2 (by norm_num)
      have e3 := chunkArray_cons_eq ((ops.drop 400).drop 400) 400 hne3 (by norm_num)
      rw [show MAX_BATCH_SIZE = 400 from rfl, e1, e2, e3, hdrop3, htake3]
      simp [chunkArray]
    have htr1 : chunkTrace (ops.take 400) =
        [FlushAction.commitBatch (ops.take 400)] := by
      apply chunkTrace_no_deleteAll
      · intro h
        have := congrArg List.length h
        simp [List.length_take, hlen] at this
      · intro op hop
        exact hnd op (List.take_subset 400 ops hop)
    have htr2 : chunkTrace ((ops.drop 400).take 400) =
        [FlushAction.commitBatch ((ops.drop 400).take 400)] := by
      apply chunkTrace_no_deleteAll
      · intro h
        have := congrArg List.length h
        simp [List.length_take, hl2] at this
      · intro op hop
        exact hnd op (List.drop_subset 400 ops (List.take_subset 400 _ hop))
    have htr3 : chunkTrace ((ops.drop 400).drop 400) =
        [FlushAction.commitBatch ((ops.drop 400).drop 400)] := by
      apply chunkTrace_no_deleteAll
      · exact hne3
      · intro op hop
        exact hnd op (List.drop_subset 400 ops (List.drop_subset 400 _ hop))
    refine ⟨?_, ?_, ?_, ?_, ?_⟩
    · unfold flushTrace
      rw [workspaceIds_single ops w hne hall]
      simp only [List.map_cons, List.map_nil, List.flatten_cons,
        List.flatten_nil, List.append_nil]
      rw [hfilter, hchunks]
      simp only [List.map_cons, List.map_nil, htr1, htr2, htr3,
        List.flatten_cons, List.flatten_nil, List.append_nil,
        List.singleton_append]
    · simp [List.length_take, hlen]
    · simp [List.length_take, hl2]
    · exact hl3
    · rw [List.take_append_drop, List.take_append_drop]
  · intro chunk
    unfold chunkTrace
    refine ⟨_, _, rfl, ?_, ?_⟩
    · intro a ha
      rcases List.mem_filterMap.mp ha with ⟨op, hop1, hop2⟩
      cases op with
      | create n w d => simp at hop2
      | update n w d => simp at hop2
      | delete n w => simp at hop2
      | deleteAll pg wk =>
        simp only [Option.some.injEq] at hop2
        rw [← hop2]
        rfl
    · intro a ha
      split at ha
      · simp only [List.mem_singleton] at ha
        rw [ha]
        rfl
      · simp at ha



/-- Witness for C5 at a concrete queue of 900 identical update
operations. -/
theorem c5_batch_chunking_witness :
    flushTrace (List.replicate 900 opA) =
      [FlushAction.commitBatch (List.replicate 400 opA),
       FlushAction.commitBatch (List.replicate 400 opA),
       FlushAction.commitBatch (List.replicate 100 opA)] := by
  have h := (c5_batch_chunking.1 (List.replicate 900 opA) "w"
    (by rw [List.length_replicate])
    (fun op hop => by rw [List.eq_of_mem_replicate hop]; rfl)
    (fun op hop => by rw [List.eq_of_mem_replicate hop]; rfl)).1
  rw [h]
  simp only [List.take_replicate, List.drop_replicate]
  norm_num

/-- Running a debounced enqueue trace: as long as every event arrives
within `FLUSH_DELAY` of the previous one and the queue stays below the
size ceiling, no timer fires and no flush starts; the queue accumulates
every operation and the timer deadline is always measured from the last
enqueue. -/
theorem runTrace_debounce :
    ∀ (rest : List (ℕ × List Operation)) (tprev : ℕ) (s : QueueState),
      withinDebounceB tprev rest = true →
      s.flushTimer = some (tprev + FLUSH_DELAY) →
      s.isProcessing = false →
      (s.operations ++ joinedOps rest).length < MAX_BATCH_SIZE →
      runTrace s rest =
        { operations := s.operations ++ joinedOps rest,
          flushTimer := some (lastTime tprev rest + FLUSH_DELAY),
          isProcessing := false, flights := s.flights } := by
  intro rest
  induction rest with
  | nil =>
    intro tprev s hw ht hp hlen
    cases s with
    | mk ops ft ip fl =>
      simp only [runTrace, List.foldl_nil, joinedOps, List.map_nil,
        List.flatten_nil, List.append_nil, lastTime]
      simp_all
  | cons e rest ih =>
    intro tprev s hw ht hp hlen
    obtain ⟨t, ops2⟩ := e
    simp only [withinDebounceB, Bool.and_eq_true, decide_eq_true_eq] at hw
    obtain ⟨⟨hle, hlt⟩, hw2⟩ := hw
    have hjoin : joinedOps ((t, ops2) :: rest) = ops2 ++ joinedOps rest := by
      simp [joinedOps]
    rw [hjoin] at hlen
    have hstep : stepEvent s (t, ops2) =
        { s with operations := s.operations ++ ops2,
                 flushTimer := some (t + FLUSH_DELAY) } := by
      have hfire : ¬ tprev + FLUSH_DELAY ≤ t := by omega
      have hnoflush : ¬ MAX_BATCH_SIZE ≤ (s.operations ++ ops2).length := by
        have hmono : (s.operations ++ ops2).length ≤
            (s.operations ++ (ops2 ++ joinedOps rest)).length := by
          simp [List.length_append]
        omega
      simp only [stepEvent, ht, hfire, if_false, addOperationsAt]
      rw [if_neg hnoflush]
    have hrun : runTrace s ((t, ops2) :: rest) =
        runTrace (stepEvent s (t, ops2)) rest := by
      simp [runTrace]
    have h2 := ih t
      { s with operations := s.operations ++ ops2,
               flushTimer := some (t + FLUSH_DELAY) } hw2 rfl hp
      (by
        show ((s.operations ++ ops2) ++ joinedOps rest).length < MAX_BATCH_SIZE
        simp only [List.length_append] at hlen ⊢
        omega)
    rw [hrun, hstep, h2]
    simp [lastTime, List.append_assoc, hjoin]

/-- C6: (first conjunct) for `N ≥ 1` enqueue calls each arriving within
the 250 ms debounce delay of the previous one, each call re-arms the timer
measured from itself; no flush happens during the sequence, and the timer
firing after the last call starts exactly one flush carrying the union of
all the calls' operations, leaving the queue empty.  (Second conjunct) an
enqueue that brings the queue to the `MAX_BATCH_SIZE` ceiling triggers a
flush immediately, carrying the whole queue, without waiting for the
timer. -/
theorem c6_debounce_collapse :
    (∀ (t0 : ℕ) (ops0 : List Operation) (rest : List (ℕ × List Operation)),
        withinDebounceB t0 rest = true →
        (ops0 ++ joinedOps rest).length < MAX_BATCH_SIZE →
        ops0 ++ joinedOps rest ≠ [] →
        runTrace initialQueue ((t0, ops0) :: rest) =
          { operations := ops0 ++ joinedOps rest,
            flushTimer := some (lastTime t0 rest + FLUSH_DELAY),
            isProcessing := false, flights := [] } ∧
        (timerFire (runTrace initialQueue ((t0, ops0) :: rest))).flights =
          [ops0 ++ joinedOps rest] ∧
        (timerFire (runTrace initialQueue ((t0, ops0) :: rest))).operations
          = []) ∧
    (∀ (s : QueueState) (now : ℕ) (ops : List Operation),
        s.isProcessing = false →
        MAX_BATCH_SIZE ≤ (s.operations ++ ops).length →
        (addOperationsAt s now ops).flights =
          s.flights ++ [s.operations ++ ops] ∧
        (addOperationsAt s now ops).operations = []) := by
  constructor
  · intro t0 ops0 rest hw hlen hne
    have hstep0 : stepEvent initialQueue (t0, ops0) =
        { operations := ops0, flushTimer := some (t0 + FLUSH_DELAY),
          isProcessing := false, flights := [] } := by
      have hnoflush : ¬ MAX_BATCH_SIZE ≤ ops0.length := by
        have hmono : ops0.length ≤ (ops0 ++ joinedOps rest).length := by
          simp [List.length_append]
        omega
      simp only [stepEvent, initialQueue, addOperationsAt]
      simp only [List.nil_append]
      rw [if_neg hnoflush]
    have hrun : runTrace initialQueue ((t0, ops0) :: rest) =
        runTrace (stepEvent initialQueue (t0, ops0)) rest := by
      simp [runTrace]
    have hmain : runTrace initialQueue ((t0, ops0) :: rest) =
        { operations := ops0 ++ joinedOps rest,
          flushTimer := some (lastTime t0 rest + FLUSH_DELAY),
          isProcessing := false, flights := [] } := by
      rw [hrun, hstep0]
      exact runTrace_debounce rest t0 _ hw rfl rfl hlen
    refine ⟨hmain, ?_, ?_⟩
    · rw [hmain]
      simp [timerFire, flushAtomic, hne]
    · rw [hmain]
      simp [timerFire, flushAtomic, hne]
  · intro s now ops hp hlen
    have hne : s.operations ++ ops ≠ [] := by
      intro h
      rw [h] at hlen
      simp [MAX_BATCH_SIZE] at hlen
    have hlen2 : MAX_BATCH_SIZE ≤ s.operations.length + ops.length := by
      simpa [List.length_append] using hlen
    constructor
    · simp [addOperationsAt, flushAtomic, hp, hne, hlen2]
    · simp [addOperationsAt, flushAtomic, hp, hne, hlen2]

/-- Witness for C6: three enqueues at 0, 100 and 200 ms collapse into one
timer flush carrying all three operations; a 400th operation triggers an
immediate flush of the whole queue. -/
theorem c6_debounce_collapse_witness :
    (timerFire (runTrace initialQueue
      [(0, [opA]), (100, [opB]), (200, [opC])])).flights = [[opA, opB, opC]] ∧
    (addOperationsAt
      { operations := List.replicate 399 opA, flushTimer := none,
        isProcessing := false, flights := [] } 5 [opB]).flights =
      [List.replicate 399 opA ++ [opB]] := by
  constructor
  · have h := (c6_debounce_collapse.1 0 [opA] [(100, [opB]), (200, [opC])]
      (by decide) (by decide) (by decide)).2.1
    simpa [joinedOps] using h
  · have h := (c6_debounce_collapse.2
      { operations := List.replicate 399 opA, flushTimer := none,
        isProcessing := false, flights := [] } 5 [opB] rfl
      (by rw [List.length_append, List.length_replicate]; decide)).1
    simpa only [List.nil_append] using h

/-- `addToSet` contains its new element. -/
theorem addToSet_self_mem (s : List ℚ) (x : ℚ) : x ∈ addToSet s x := by
  unfold addToSet
  split
  · assumption
  · simp

/-- `addToSet` keeps the existing elements. -/
theorem addToSet_sub (s : List ℚ) (x q : ℚ) (h : q ∈ s) : q ∈ addToSet s x := by
  unfold addToSet
  split
  · exact h
  · simp [h]

/-- Adding an element twice is the same as adding it once. -/
theorem addToSet_idem (s : List ℚ) (x : ℚ) :
    addToSet (addToSet s x) x = addToSet s x := by
  unfold addToSet
  split
  · simp_all
  · simp

/-- `assocSet` stores the new binding at its key. -/
theorem assocGet_assocSet_self {α β : Type} [DecidableEq α]
    (m : List (α × β)) (k : α) (v : β) :
    assocGet (assocSet m k v) k = some v := by
  induction m with
  | nil => simp [assocSet, assocGet]
  | cons e m ih =>
    by_cases h : e.1 = k
    · simp [assocSet, assocGet, h]
    · simp [assocSet, assocGet, h, ih]

/-- `assocSet` leaves other keys alone. -/
theorem assocGet_assocSet_ne {α β : Type} [DecidableEq α]
    (m : List (α × β)) (k k2 : α) (v : β) (h : k2 ≠ k) :
    assocGet (assocSet m k v) k2 = assocGet m k2 := by
  have h2 : ¬ k = k2 := fun hx => h hx.symm
  induction m with
  | nil => simp [assocSet, assocGet, h2]
  | cons e m ih =>
    by_cases he : e.1 = k
    · simp [assocSet, assocGet, he, h2]
    · by_cases he2 : e.1 = k2
      · simp [assocSet, assocGet, he, he2, h]
      · simp [assocSet, assocGet, he, he2, ih]

/-- Effect of `setBlockId` on `getBlockId` at the same page. -/
theorem getBlockId_setBlockId (c : BlockCache) (pg : String) (i j : ℕ)
    (v : String) :
    getBlockId (setBlockId c pg i v) pg j =
      if j = i then some v else getBlockId c pg j := by
  have hij : ∀ h : ¬ j = i, ¬ i = j := fun h hx => h hx.symm
  by_cases hj : j = i
  · subst hj
    unfold setBlockId
    cases hc : assocGet c pg with
    | some inner => simp [getBlockId, assocGet_assocSet_self]
    | none => simp [getBlockId, assocGet_assocSet_self, assocGet]
  · rw [if_neg hj]
    unfold setBlockId
    cases hc : assocGet c pg with
    | some inner =>
      simp only [getBlockId, assocGet_assocSet_self, hc]
      exact assocGet_assocSet_ne inner i j v hj
    | none =>
      simp only [getBlockId, assocGet_assocSet_self, hc]
      simp [assocGet, hij hj]

/-- Two naturals whose casts are closer than the bullet-matching tolerance
are equal. -/
theorem natCast_close_eq {j i : ℕ} (h : |(j : ℚ) - (i : ℚ)| < 1/1000) :
    j = i := by
  by_contra hne
  have hz : ((j : ℤ) - (i : ℤ)) ≠ 0 :=
    sub_ne_zero.mpr (by exact_mod_cast hne)
  have h2 : (1 : ℤ) ≤ |(j : ℤ) - (i : ℤ)| := Int.one_le_abs hz
  have h3 : (1 : ℚ) ≤ |(j : ℚ) - (i : ℚ)| := by
    calc (1 : ℚ) = ((1 : ℤ) : ℚ) := by norm_num
      _ ≤ ((|(j : ℤ) - (i : ℤ)| : ℤ) : ℚ) := by exact_mod_cast h2
      _ = |(j : ℚ) - (i : ℚ)| := by push_cast; ring_nf
  linarith



/-- Step on a paragraph with no cache hit and no block at order `i`:
either a fresh create (non-blank content) or nothing. -/
theorem syncStep_para_empty (w p u : String) (gen : ℕ → String)
    (paras : List Node) (map : List (ℚ × Node)) (st : SyncState) (i : ℕ)
    (c : String) (hcache : getBlockId st.cache p i = none)
    (hget : assocGet map (i : ℚ) = none)
    (hfind : paras.find? (fun pb =>
      decide (pb.text = some c ∧
        pb.order ∉ addToSet st.processedOrders (i : ℚ))) = none) :
    syncStep w p u gen map paras st i (ContentItem.paragraph (some c)) =
      if c ≠ "" ∧ jsTrim c ≠ "" then
        { st with
          processedOrders := addToSet st.processedOrders (i : ℚ),
          cache := setBlockId st.cache p i (gen st.nextId),
          operations := st.operations ++
            [Operation.create (gen st.nextId) w
              { type := "paragraph", text := c, parentId := p,
                order := (i : ℚ), refs := [], createdBy := u, ver := 1 }],
          nextId := st.nextId + 1 }
      else
        { st with processedOrders := addToSet st.processedOrders (i : ℚ) } := by
  simp only [syncStep]
  simp only [hcache, hget]
  simp only [paragraphFallback]
  by_cases hcond : c ≠ "" ∧ jsTrim c ≠ ""
  · rw [if_pos hcond, if_pos hcond, hfind]
  · rw [if_neg hcond, if_neg hcond]

/-- Step on a bullet list with no bullet and no non-bullet block within
tolerance of order `i`: a fresh create. -/
theorem syncStep_bullet_empty (w p u : String) (gen : ℕ → String)
    (paras : List Node) (map : List (ℚ × Node)) (st : SyncState) (i : ℕ)
    (items : List String)
    (hfb : (mapValues map).find? (fun b =>
      decide (|b.order - (i : ℚ)| < 1/1000 ∧ b.type = "bullet")) = none)
    (hfnb : (mapValues map).find? (fun b =>
      decide (|b.order - (i : ℚ)| < 1/1000 ∧ b.type ≠ "bullet")) = none) :
    syncStep w p u gen map paras st i (ContentItem.bulletList items) =
      { st with
        processedOrders := addToSet st.processedOrders (i : ℚ),
        operations := st.operations ++
          [Operation.create (gen st.nextId) w
            { type := "bullet", text := String.intercalate "\n" items,
              parentId := p, order := (i : ℚ), refs := [], createdBy := u,
              ver := 1 }],
        nextId := st.nextId + 1 } := by
  simp only [syncStep]
  simp only [hfb, hfnb, addToSet_idem]

/-- Step on a paragraph with no cache hit whose position is occupied by a
paragraph block with identical text: the block id is cached and no
operation is emitted. -/
theorem syncStep_para_match (w p u : String) (gen : ℕ → String)
    (paras : List Node) (map : List (ℚ × Node)) (st : SyncState) (i : ℕ)
    (c : String) (b : Node) (hcache : getBlockId st.cache p i = none)
    (hget : assocGet map (i : ℚ) = some b) (hty : b.type = "paragraph")
    (htext : b.text = some c) :
    syncStep w p u gen map paras st i (ContentItem.paragraph (some c)) =
      { st with
        processedOrders := addToSet st.processedOrders (i : ℚ),
        cache := setBlockId st.cache p i b.id } := by
  simp only [syncStep]
  simp only [hcache, hget]
  rw [if_pos hty]
  rw [if_neg (by simp [htext])]

/-- Step on a bullet list matched by an existing bullet block with
identical text: the block id is cached and no operation is emitted. -/
theorem syncStep_bullet_match (w p u : String) (gen : ℕ → String)
    (paras : List Node) (map : List (ℚ × Node)) (st : SyncState) (i : ℕ)
    (items : List String) (b : Node)
    (hfb : (mapValues map).find? (fun bb =>
      decide (|bb.order - (i : ℚ)| < 1/1000 ∧ bb.type = "bullet")) = some b)
    (htext : b.text = some (String.intercalate "\n" items)) :
    syncStep w p u gen map paras st i (ContentItem.bulletList items) =
      { st with
        processedOrders := addToSet st.processedOrders (i : ℚ),
        cache := setBlockId st.cache p i b.id } := by
  simp only [syncStep]
  simp only [hfb, addToSet_idem]
  rw [if_neg (by simp [htext])]

/-- Step on a contentless paragraph: only the position is processed. -/
theorem syncStep_para_none (w p u : String) (gen : ℕ → String)
    (paras : List Node) (map : List (ℚ × Node)) (st : SyncState) (i : ℕ) :
    syncStep w p u gen map paras st i (ContentItem.paragraph none) =
      { st with processedOrders := addToSet st.processedOrders (i : ℚ) } := by
  rfl

/-- Step on an unrecognized item: only the position is processed. -/
theorem syncStep_other (w p u : String) (gen : ℕ → String)
    (paras : List Node) (map : List (ℚ × Node)) (st : SyncState) (i : ℕ) :
    syncStep w p u gen map paras st i ContentItem.other =
      { st with processedOrders := addToSet st.processedOrders (i : ℚ) } := by
  rfl



/-- The position loop of a sync against an empty store creates exactly the
blocks of `createdList`, in position order. -/
theorem syncLoopA (w p u : String) (gen : ℕ → String) :
    ∀ (content : List ContentItem) (i : ℕ) (st : SyncState),
      (∀ j, i ≤ j → getBlockId st.cache p j = none) →
      (syncLoop w p u gen [] [] st i content).operations =
        st.operations ++ createOps w (createdList p u gen i st.nextId content) := by
  intro content
  induction content with
  | nil =>
    intro i st hc
    simp [syncLoop, createdList, createOps]
  | cons item rest ih =>
    intro i st hc
    have hcachei : getBlockId st.cache p i = none := hc i (le_refl i)
    cases item with
    | paragraph oc =>
      cases oc with
      | none =>
        simp only [syncLoop, syncStep_para_none]
        rw [ih (i+1)
          { st with processedOrders := addToSet st.processedOrders (i : ℚ) }
          (fun j hj => hc j (by omega))]
        simp [createdList, itemBlock]
      | some c =>
        simp only [syncLoop,
          syncStep_para_empty w p u gen [] [] st i c hcachei rfl rfl]
        by_cases hcond : c ≠ "" ∧ jsTrim c ≠ ""
        · rw [if_pos hcond]
          have h2 := ih (i+1)
            { st with
              processedOrders := addToSet st.processedOrders (i : ℚ),
              cache := setBlockId st.cache p i (gen st.nextId),
              operations := st.operations ++
                [Operation.create (gen st.nextId) w
                  { type := "paragraph", text := c, parentId := p,
                    order := (i : ℚ), refs := [], createdBy := u, ver := 1 }],
              nextId := st.nextId + 1 }
            (by
              intro j hj
              show getBlockId (setBlockId st.cache p i (gen st.nextId)) p j
                = none
              rw [getBlockId_setBlockId, if_neg (by omega)]
              exact hc j (by omega))
          rw [h2]
          simp only [createdList, itemBlock, if_pos hcond, createOps,
            List.map_cons]
          simp [List.append_assoc]
        · rw [if_neg hcond]
          rw [ih (i+1)
            { st with processedOrders := addToSet st.processedOrders (i : ℚ) }
            (fun j hj => hc j (by omega))]
          simp only [createdList, itemBlock, if_neg hcond]
    | bulletList items =>
      simp only [syncLoop,
        syncStep_bullet_empty w p u gen [] [] st i items rfl rfl]
      have h2 := ih (i+1)
        { st with
          processedOrders := addToSet st.processedOrders (i : ℚ),
          operations := st.operations ++
            [Operation.create (gen st.nextId) w
              { type := "bullet", text := String.intercalate "\n" items,
                parentId := p, order := (i : ℚ), refs := [],
                createdBy := u, ver := 1 }],
          nextId := st.nextId + 1 }
        (fun j hj => hc j (by omega))
      rw [h2]
      simp only [createdList, itemBlock, createOps, List.map_cons]
      simp [List.append_assoc]
    | other =>
      simp only [syncLoop, syncStep_other]
      rw [ih (i+1)
        { st with processedOrders := addToSet st.processedOrders (i : ℚ) }
        (fun j hj => hc j (by omega))]
      simp [createdList, itemBlock]

/-- The operations of a first sync against an empty store with an empty
cache are exactly the creates of `createdList`. -/
theorem firstSync_ops (w p u : String) (gen : ℕ → String)
    (content : List ContentItem) (rc : Option String)
    (hne : isEmptyContent content = false) :
    (syncPageBlocks w p content u rc [] emptyCache gen).operations =
      createOps w (createdList p u gen 0 0 content) := by
  simp only [syncPageBlocks, hne, Bool.false_eq_true, if_false]
  rw [show buildMap ([] : List Node) = [] from rfl,
    show sortByOrder (List.filter (fun b => decide (b.type = "paragraph")) [])
      = [] from rfl]
  rw [syncLoopA w p u gen content 0
    { processedOrders := [], operations := [], cache := emptyCache,
      nextId := 0 } (fun j hj => rfl)]
  simp

/-- Applying the create operations of a draft list to the empty store
appends exactly the corresponding nodes. -/
theorem applyOps_createOps (w : String) :
    ∀ (l : List (String × NodeDraft)) (acc : List Node),
      applyOps acc (createOps w l) = acc ++ l.map draftNode := by
  intro l
  induction l with
  | nil => intro acc; simp [applyOps, createOps]
  | cons e rest ih =>
    intro acc
    simp only [createOps, List.map_cons, applyOps, List.foldl_cons]
    rw [show List.foldl applyOp (applyOp acc (Operation.create e.1 w e.2))
      (List.map (fun e => Operation.create e.1 w e.2) rest) =
      applyOps (applyOp acc (Operation.create e.1 w e.2)) (createOps w rest)
      from rfl]
    rw [ih]
    simp [applyOp, draftNode]



/-- Every created draft sits at a natural-number position inside the
snapshot range. -/
theorem createdList_order (p u : String) (gen : ℕ → String) :
    ∀ (content : List ContentItem) (i k : ℕ) (e : String × NodeDraft),
      e ∈ createdList p u gen i k content →
      ∃ j : ℕ, i ≤ j ∧ j < i + content.length ∧ e.2.order = (j : ℚ) := by
  intro content
  induction content with
  | nil => intro i k e he; simp [createdList] at he
  | cons item rest ih =>
    intro i k e he
    cases h : itemBlock item with
    | some pr =>
      obtain ⟨ty, tx⟩ := pr
      rw [createdList, h] at he
      rcases List.mem_cons.mp he with he | he
      · exact ⟨i, le_refl i, by simp, by rw [he]⟩
      · rcases ih (i+1) (k+1) e he with ⟨j, hj1, hj2, hj3⟩
        exact ⟨j, by omega, by simp only [List.length_cons]; omega, hj3⟩
    | none =>
      rw [createdList, h] at he
      rcases ih (i+1) k e he with ⟨j, hj1, hj2, hj3⟩
      exact ⟨j, by omega, by simp only [List.length_cons]; omega, hj3⟩

/-- Every created node sits at a natural-number position inside the
snapshot range. -/
theorem createdNodes_order (p u : String) (gen : ℕ → String)
    (content : List ContentItem) (i k : ℕ) (b : Node)
    (hb : b ∈ createdNodes p u gen i k content) :
    ∃ j : ℕ, i ≤ j ∧ j < i + content.length ∧ b.order = (j : ℚ) := by
  rcases List.mem_map.mp hb with ⟨e, he, rfl⟩
  exact createdList_order p u gen content i k e he

/-- No created node sits below the starting position. -/
theorem nodeAt_createdNodes_lt (p u : String) (gen : ℕ → String) :
    ∀ (content : List ContentItem) (i k j : ℕ), j < i →
      nodeAt (createdNodes p u gen i k content) (j : ℚ) = none := by
  intro content
  induction content with
  | nil => intro i k j hj; rfl
  | cons item rest ih =>
    intro i k j hj
    cases h : itemBlock item with
    | some pr =>
      obtain ⟨ty, tx⟩ := pr
      simp only [createdNodes, createdList, h, List.map_cons, nodeAt,
        draftNode]
      rw [if_neg (by
        intro hx
        have : i = j := by exact_mod_cast hx
        omega)]
      exact ih (i+1) (k+1) j (by omega)
    | none =>
      simp only [createdNodes, createdList, h]
      exact ih (i+1) k j (by omega)

/-- Lookup of the head position in the created nodes. -/
theorem nodeAt_createdNodes_head (p u : String) (gen : ℕ → String)
    (item : ContentItem) (rest : List ContentItem) (i k : ℕ) :
    nodeAt (createdNodes p u gen i k (item :: rest)) (i : ℚ) =
      match itemBlock item with
      | some (ty, tx) =>
        some { id := gen k, type := ty, text := some tx, parentId := p,
               order := (i : ℚ) }
      | none => none := by
  cases h : itemBlock item with
  | some pr =>
    obtain ⟨ty, tx⟩ := pr
    simp [createdNodes, createdList, h, nodeAt, draftNode]
  | none =>
    simp only [createdNodes, createdList, h]
    exact nodeAt_createdNodes_lt p u gen rest (i+1) k i (by omega)

/-- Lookup above the head position skips a materialised head. -/
theorem nodeAt_createdNodes_shift_some (p u : String) (gen : ℕ → String)
    (item : ContentItem) (rest : List ContentItem) (i k j : ℕ)
    (pr : String × String) (h : itemBlock item = some pr) (hj : i + 1 ≤ j) :
    nodeAt (createdNodes p u gen i k (item :: rest)) (j : ℚ) =
      nodeAt (createdNodes p u gen (i+1) (k+1) rest) (j : ℚ) := by
  obtain ⟨ty, tx⟩ := pr
  simp only [createdNodes, createdList, h, List.map_cons, nodeAt, draftNode]
  rw [if_neg (by
    intro hx
    have : i = j := by exact_mod_cast hx
    omega)]

/-- Lookup above the head position skips a non-materialising head. -/
theorem nodeAt_createdNodes_shift_none (p u : String) (gen : ℕ → String)
    (item : ContentItem) (rest : List ContentItem) (i k : ℕ) (q : ℚ)
    (h : itemBlock item = none) :
    nodeAt (createdNodes p u gen i k (item :: rest)) q =
      nodeAt (createdNodes p u gen (i+1) k rest) q := by
  simp only [createdNodes, createdList, h]

/-- `MatchesFromN` only inspects the lookup from the base position on. -/
theorem matchesFromN_mono (g1 g2 : ℕ → Option Node) :
    ∀ (content : List ContentItem) (i : ℕ),
      (∀ j, i ≤ j → g1 j = g2 j) →
      MatchesFromN g1 i content → MatchesFromN g2 i content := by
  intro content
  induction content with
  | nil => intro i _ _; trivial
  | cons item rest ih =>
    intro i hg h
    simp only [MatchesFromN] at h ⊢
    obtain ⟨h1, h2⟩ := h
    refine ⟨?_, ih (i+1) (fun j hj => hg j (by omega)) h2⟩
    rw [← hg i (le_refl i)]
    exact h1

/-- The created nodes match their own snapshot. -/
theorem matchesFromN_created (p u : String) (gen : ℕ → String) :
    ∀ (content : List ContentItem) (i k : ℕ),
      MatchesFromN
        (fun j => nodeAt (createdNodes p u gen i k content) (j : ℚ)) i
        content := by
  intro content
  induction content with
  | nil => intro i k; trivial
  | cons item rest ih =>
    intro i k
    simp only [MatchesFromN]
    constructor
    · cases h : itemBlock item with
      | some pr =>
        obtain ⟨ty, tx⟩ := pr
        refine ⟨{ id := gen k, type := ty, text := some tx, parentId := p,
                  order := (i : ℚ) }, ?_, rfl, rfl, rfl⟩
        rw [nodeAt_createdNodes_head, h]
      | none =>
        rw [nodeAt_createdNodes_head, h]
    · cases h : itemBlock item with
      | some pr =>
        exact matchesFromN_mono _ _ rest (i+1)
          (fun j hj =>
            (nodeAt_createdNodes_shift_some p u gen item rest i k j pr h
              hj).symm)
          (ih (i+1) (k+1))
      | none =>
        exact matchesFromN_mono _ _ rest (i+1)
          (fun j hj =>
            (nodeAt_createdNodes_shift_none p u gen item rest i k
              (j : ℚ) h).symm)
          (ih (i+1) k)



/-- `assocSet` with a fresh key appends the binding. -/
theorem assocSet_append_of_none {α β : Type} [DecidableEq α]
    (m : List (α × β)) (k : α) (v : β) (h : assocGet m k = none) :
    assocSet m k v = m ++ [(k, v)] := by
  induction m with
  | nil => rfl
  | cons e m ih =>
    by_cases he : e.1 = k
    · rw [assocGet, if_pos he] at h
      exact absurd h (by simp)
    · rw [assocGet, if_neg he] at h
      simp [assocSet, he, ih h]

/-- `assocGet` over an append searches left first. -/
theorem assocGet_append {α β : Type} [DecidableEq α]
    (m1 m2 : List (α × β)) (k : α) :
    assocGet (m1 ++ m2) k =
      match assocGet m1 k with
      | some v => some v
      | none => assocGet m2 k := by
  induction m1 with
  | nil => simp [assocGet]
  | cons e m1 ih =>
    by_cases he : e.1 = k
    · simp [assocGet, he]
    · simp [assocGet, he, ih]

/-- With pairwise-distinct orders, `buildMap` is exactly the
`(order, block)` pair list. -/
theorem buildMap_eq_pairs :
    ∀ (blocks : List Node),
      ((blocks.map fun b => b.order).Nodup) →
      buildMap blocks = blocks.map (fun b => (b.order, b)) := by
  suffices hgen : ∀ (blocks : List Node) (acc : List (ℚ × Node)),
      (∀ b ∈ blocks, assocGet acc b.order = none) →
      ((blocks.map fun b => b.order).Nodup) →
      blocks.foldl (fun m b => assocSet m b.order b) acc =
        acc ++ blocks.map (fun b => (b.order, b)) by
    intro blocks hnd
    have := hgen blocks [] (fun b _ => rfl) hnd
    simpa [buildMap] using this
  intro blocks
  induction blocks with
  | nil => intro acc _ _; simp
  | cons b rest ih =>
    intro acc hacc hnd
    simp only [List.map_cons, List.nodup_cons] at hnd
    obtain ⟨hbo, hnd⟩ := hnd
    simp only [List.foldl_cons]
    rw [assocSet_append_of_none acc b.order b (hacc b (by simp))]
    rw [ih (acc ++ [(b.order, b)])
      (by
        intro b2 hb2
        rw [assocGet_append, hacc b2 (by simp [hb2])]
        have hne : ¬ b.order = b2.order := by
          intro hx
          exact hbo (by rw [hx]; exact List.mem_map_of_mem _ hb2)
        simp [assocGet, hne])
      hnd]
    simp

/-- Lookup in the pair list is `nodeAt`. -/
theorem assocGet_pairs_eq_nodeAt :
    ∀ (blocks : List Node) (q : ℚ),
      assocGet (blocks.map fun b => (b.order, b)) q = nodeAt blocks q := by
  intro blocks
  induction blocks with
  | nil => intro q; rfl
  | cons b rest ih =>
    intro q
    by_cases hq : b.order = q
    · simp [assocGet, nodeAt, hq]
    · simp [assocGet, nodeAt, hq, ih]

/-- The values of the pair list are the blocks themselves. -/
theorem mapValues_pairs (blocks : List Node) :
    mapValues (blocks.map fun b => (b.order, b)) = blocks := by
  induction blocks with
  | nil => rfl
  | cons b rest ih =>
    simp only [List.map_cons, mapValues] at ih ⊢
    rw [ih]

/-- Created nodes have pairwise-distinct orders. -/
theorem createdNodes_orders_nodup (p u : String) (gen : ℕ → String) :
    ∀ (content : List ContentItem) (i k : ℕ),
      ((createdNodes p u gen i k content).map fun b => b.order).Nodup := by
  intro content
  induction content with
  | nil => intro i k; simp [createdNodes, createdList]
  | cons item rest ih =>
    intro i k
    cases h : itemBlock item with
    | some pr =>
      obtain ⟨ty, tx⟩ := pr
      simp only [createdNodes, createdList, h, List.map_cons,
        List.nodup_cons]
      constructor
      · intro hmem
        rcases List.mem_map.mp hmem with ⟨b, hb, hbo⟩
        rcases createdNodes_order p u gen rest (i+1) (k+1) b hb with
          ⟨j, hj1, _, hj3⟩
        rw [show (draftNode (gen k,
          { type := ty, text := tx, parentId := p, order := (i : ℚ),
            refs := [], createdBy := u, ver := 1 })).order = (i : ℚ)
          from rfl] at hbo
        rw [hj3] at hbo
        have : j = i := by exact_mod_cast hbo
        omega
      · exact ih (i+1) (k+1)
    | none =>
      simp only [createdNodes, createdList, h]
      exact ih (i+1) k

/-- Searching the block values with the `0.001` tolerance over
natural-ordered, duplicate-free blocks is an exact order lookup filtered
by type. -/
theorem find_tolerance (ty : String) (i : ℕ) :
    ∀ (blocks : List Node),
      (∀ b ∈ blocks, ∃ j : ℕ, b.order = (j : ℚ)) →
      ((blocks.map fun b => b.order).Nodup) →
      blocks.find? (fun b =>
        decide (|b.order - (i : ℚ)| < 1/1000 ∧ b.type = ty)) =
      match nodeAt blocks (i : ℚ) with
      | some b => if b.type = ty then some b else none
      | none => none := by
  intro blocks
  induction blocks with
  | nil => intro _ _; rfl
  | cons b rest ih =>
    intro hnat hnd
    simp only [List.map_cons, List.nodup_cons] at hnd
    obtain ⟨hbo, hnd⟩ := hnd
    rcases hnat b (by simp) with ⟨j, hj⟩
    by_cases hji : j = i
    · have horder : b.order = (i : ℚ) := by rw [hj, hji]
      have htol : |b.order - (i : ℚ)| < 1/1000 := by
        rw [horder]
        simp only [sub_self, abs_zero]
        norm_num
      by_cases hty : b.type = ty
      · rw [List.find?_cons_of_pos _
          (by simp only [decide_eq_true_eq]; exact ⟨htol, hty⟩)]
        simp [nodeAt, horder, hty]
      · rw [List.find?_cons_of_neg _ (by simp [hty])]
        have hrest : rest.find? (fun bb =>
            decide (|bb.order - (i : ℚ)| < 1/1000 ∧ bb.type = ty)) = none := by
          rw [List.find?_eq_none]
          intro b2 hb2
          simp only [decide_eq_true_eq, not_and]
          intro htol2 _
          rcases hnat b2 (by simp [hb2]) with ⟨j2, hj2⟩
          rw [hj2] at htol2
          have hj2i : j2 = i := natCast_close_eq htol2
          apply hbo
          rw [horder, ← hj2i, ← hj2]
          exact List.mem_map_of_mem _ hb2
        rw [hrest]
        simp [nodeAt, horder, hty]
    · have hnot : ¬ |b.order - (i : ℚ)| < 1/1000 := by
        rw [hj]
        intro hcon
        exact hji (natCast_close_eq hcon)
      rw [List.find?_cons_of_neg _
        (by simp only [decide_eq_true_eq]; exact fun hh => absurd hh.1 hnot)]
      have hne : ¬ b.order = (i : ℚ) := by
        rw [hj]
        intro hx
        exact hji (by exact_mod_cast hx)
      simp only [nodeAt, if_neg hne]
      exact ih (fun b2 hb2 => hnat b2 (by simp [hb2])) hnd



/-- Step on a blank paragraph with no cache hit and no block at order `i`:
nothing but the processed mark. -/
theorem syncStep_para_blank (w p u : String) (gen : ℕ → String)
    (paras : List Node) (map : List (ℚ × Node)) (st : SyncState) (i : ℕ)
    (c : String) (hcache : getBlockId st.cache p i = none)
    (hget : assocGet map (i : ℚ) = none)
    (hcond : ¬(c ≠ "" ∧ jsTrim c ≠ "")) :
    syncStep w p u gen map paras st i (ContentItem.paragraph (some c)) =
      { st with processedOrders := addToSet st.processedOrders (i : ℚ) } := by
  simp only [syncStep, hcache, hget, paragraphFallback]
  rw [if_neg hcond]

/-- When every map key equals its node's order, map lookup is value
lookup. -/
theorem assocGet_eq_nodeAt_values :
    ∀ (map : List (ℚ × Node)), (∀ e ∈ map, e.1 = e.2.order) →
      ∀ q, assocGet map q = nodeAt (mapValues map) q := by
  intro map
  induction map with
  | nil => intro _ q; rfl
  | cons e rest ih =>
    intro hkeys q
    have he : e.1 = e.2.order := hkeys e (by simp)
    by_cases hq : e.1 = q
    · simp [assocGet, nodeAt, mapValues, hq, ← he]
    · have hq2 : ¬ e.2.order = q := by rw [← he]; exact hq
      simp only [assocGet, mapValues, List.map_cons, nodeAt, if_neg hq,
        if_neg hq2]
      exact ih (fun e2 h2 => hkeys e2 (by simp [h2])) q

/-- The position loop of a sync whose map already matches the snapshot
(and with an empty cache for the page) emits no operation, while marking
every snapshot position processed. -/
theorem syncLoopB (w p u : String) (gen : ℕ → String)
    (map : List (ℚ × Node)) (paras : List Node)
    (hkeys : ∀ e ∈ map, e.1 = e.2.order)
    (hnat : ∀ b ∈ mapValues map, ∃ j : ℕ, b.order = (j : ℚ))
    (hnodup : ((mapValues map).map fun b => b.order).Nodup) :
    ∀ (content : List ContentItem) (i : ℕ) (st : SyncState),
      MatchesFromN (fun j => assocGet map (j : ℚ)) i content →
      (∀ j, i ≤ j → getBlockId st.cache p j = none) →
      (syncLoop w p u gen map paras st i content).operations = st.operations ∧
      (∀ q ∈ st.processedOrders,
        q ∈ (syncLoop w p u gen map paras st i content).processedOrders) ∧
      (∀ j : ℕ, i ≤ j → j < i + content.length →
        (j : ℚ) ∈ (syncLoop w p u gen map paras st i content).processedOrders) := by
  intro content
  induction content with
  | nil =>
    intro i st _ _
    refine ⟨rfl, fun q hq => hq, ?_⟩
    intro j hj1 hj2
    simp at hj2
    omega
  | cons item rest ih =>
    intro i st hmatch hcache
    simp only [MatchesFromN] at hmatch
    obtain ⟨hhead, htail⟩ := hmatch
    have hcachei := hcache i (le_refl i)
    cases item with
    | paragraph oc =>
      cases oc with
      | none =>
        simp only [syncLoop, syncStep_para_none]
        rcases ih (i+1)
          { st with processedOrders := addToSet st.processedOrders (i : ℚ) }
          htail (fun j hj => hcache j (by omega)) with ⟨ho, hp2, hp3⟩
        refine ⟨ho, ?_, ?_⟩
        · intro q hq
          exact hp2 q (addToSet_sub _ _ _ hq)
        · intro j hj1 hj2
          by_cases hji : j = i
          · subst hji
            exact hp2 _ (addToSet_self_mem _ _)
          · exact hp3 j (by omega)
              (by simp only [List.length_cons] at hj2; omega)
      | some c =>
        by_cases hcond : c ≠ "" ∧ jsTrim c ≠ ""
        · have hib : itemBlock (ContentItem.paragraph (some c)) =
              some ("paragraph", c) := by
            simp [itemBlock, hcond]
          simp only [hib] at hhead
          obtain ⟨b, hb1, hb2, hb3, hb4⟩ := hhead
          simp only [syncLoop,
            syncStep_para_match w p u gen paras map st i c b hcachei hb1 hb2
              hb3]
          rcases ih (i+1)
            { st with
              processedOrders := addToSet st.processedOrders (i : ℚ),
              cache := setBlockId st.cache p i b.id }
            htail
            (by
              intro j hj
              show getBlockId (setBlockId st.cache p i b.id) p j = none
              rw [getBlockId_setBlockId, if_neg (by omega)]
              exact hcache j (by omega)) with ⟨ho, hp2, hp3⟩
          refine ⟨ho, ?_, ?_⟩
          · intro q hq
            exact hp2 q (addToSet_sub _ _ _ hq)
          · intro j hj1 hj2
            by_cases hji : j = i
            · subst hji
              exact hp2 _ (addToSet_self_mem _ _)
            · exact hp3 j (by omega)
                (by simp only [List.length_cons] at hj2; omega)
        · have hib : itemBlock (ContentItem.paragraph (some c)) = none := by
            simp [itemBlock, hcond]
          simp only [hib] at hhead
          simp only [syncLoop,
            syncStep_para_blank w p u gen paras map st i c hcachei hhead
              hcond]
          rcases ih (i+1)
            { st with processedOrders := addToSet st.processedOrders (i : ℚ) }
            htail (fun j hj => hcache j (by omega)) with ⟨ho, hp2, hp3⟩
          refine ⟨ho, ?_, ?_⟩
          · intro q hq
            exact hp2 q (addToSet_sub _ _ _ hq)
          · intro j hj1 hj2
            by_cases hji : j = i
            · subst hji
              exact hp2 _ (addToSet_self_mem _ _)
            · exact hp3 j (by omega)
                (by simp only [List.length_cons] at hj2; omega)
    | bulletList items =>
      have hib : itemBlock (ContentItem.bulletList items) =
          some ("bullet", String.intercalate "\n" items) := rfl
      simp only [hib] at hhead
      obtain ⟨b, hb1, hb2, hb3, hb4⟩ := hhead
      have hfb : (mapValues map).find? (fun bb =>
          decide (|bb.order - (i : ℚ)| < 1/1000 ∧ bb.type = "bullet")) =
          some b := by
        rw [find_tolerance "bullet" i (mapValues map) hnat hnodup]
        rw [← assocGet_eq_nodeAt_values map hkeys (i : ℚ)]
        rw [hb1]
        simp [hb2]
      simp only [syncLoop,
        syncStep_bullet_match w p u gen paras map st i items b hfb hb3]
      rcases ih (i+1)
        { st with
          processedOrders := addToSet st.processedOrders (i : ℚ),
          cache := setBlockId st.cache p i b.id }
        htail
        (by
          intro j hj
          show getBlockId (setBlockId st.cache p i b.id) p j = none
          rw [getBlockId_setBlockId, if_neg (by omega)]
          exact hcache j (by omega)) with ⟨ho, hp2, hp3⟩
      refine ⟨ho, ?_, ?_⟩
      · intro q hq
        exact hp2 q (addToSet_sub _ _ _ hq)
      · intro j hj1 hj2
        by_cases hji : j = i
        · subst hji
          exact hp2 _ (addToSet_self_mem _ _)
        · exact hp3 j (by omega)
            (by simp only [List.length_cons] at hj2; omega)
    | other =>
      simp only [syncLoop, syncStep_other]
      rcases ih (i+1)
        { st with processedOrders := addToSet st.processedOrders (i : ℚ) }
        htail (fun j hj => hcache j (by omega)) with ⟨ho, hp2, hp3⟩
      refine ⟨ho, ?_, ?_⟩
      · intro q hq
        exact hp2 q (addToSet_sub _ _ _ hq)
      · intro j hj1 hj2
        by_cases hji : j = i
        · subst hji
          exact hp2 _ (addToSet_self_mem _ _)
        · exact hp3 j (by omega)
            (by simp only [List.length_cons] at hj2; omega)



/-- C2 amended: a second `syncPageBlocks` call with identical content,
against the block set produced by the first sync, emits zero operations
provided the snapshot is not the empty-content shortcut and the Block
Identity Cache holds no entry for the page (e.g. after the cache is
cleared on a document switch).  When cache entries from the first sync
persist, the cached branch emits one redundant Update per cached paragraph
position instead (see the counterexample), and an empty snapshot re-emits
`DeleteAll`, so the claim's unconditional form is false. -/
theorem c2_noop_second_sync_amended (w p u : String) (gen : ℕ → String)
    (content : List ContentItem) (rc rc2 : Option String)
    (hne : isEmptyContent content = false) :
    (syncPageBlocks w p content u rc2
      (applyOps []
        (syncPageBlocks w p content u rc [] emptyCache gen).operations)
      emptyCache gen).operations = [] := by
  rw [firstSync_ops w p u gen content rc hne]
  rw [applyOps_createOps w (createdList p u gen 0 0 content) []]
  simp only [List.nil_append]
  rw [show (createdList p u gen 0 0 content).map draftNode =
    createdNodes p u gen 0 0 content from rfl]
  simp only [syncPageBlocks, hne, Bool.false_eq_true, if_false]
  have hnodup := createdNodes_orders_nodup p u gen content 0 0
  have hpairs := buildMap_eq_pairs (createdNodes p u gen 0 0 content) hnodup
  have hkeys : ∀ e ∈ buildMap (createdNodes p u gen 0 0 content),
      e.1 = e.2.order := by
    rw [hpairs]
    intro e he
    rcases List.mem_map.mp he with ⟨b, hb, rfl⟩
    rfl
  have hvals : mapValues (buildMap (createdNodes p u gen 0 0 content)) =
      createdNodes p u gen 0 0 content := by
    rw [hpairs]
    exact mapValues_pairs _
  have hnat : ∀ b ∈ mapValues (buildMap (createdNodes p u gen 0 0 content)),
      ∃ j : ℕ, b.order = (j : ℚ) := by
    rw [hvals]
    intro b hb
    rcases createdNodes_order p u gen content 0 0 b hb with ⟨j, _, _, hj⟩
    exact ⟨j, hj⟩
  have hnodup2 : ((mapValues (buildMap
      (createdNodes p u gen 0 0 content))).map fun b => b.order).Nodup := by
    rw [hvals]
    exact hnodup
  have hmatch : MatchesFromN
      (fun j => assocGet (buildMap (createdNodes p u gen 0 0 content))
        (j : ℚ)) 0 content := by
    apply matchesFromN_mono
      (fun j => nodeAt (createdNodes p u gen 0 0 content) (j : ℚ))
    · intro j hj
      rw [hpairs, assocGet_pairs_eq_nodeAt]
    · exact matchesFromN_created p u gen content 0 0
  obtain ⟨ho, hp2, hp3⟩ := syncLoopB w p u gen
    (buildMap (createdNodes p u gen 0 0 content))
    (sortByOrder (List.filter (fun b => decide (b.type = "paragraph"))
      (createdNodes p u gen 0 0 content)))
    hkeys hnat hnodup2 content 0
    { processedOrders := [], operations := [], cache := emptyCache,
      nextId := 0 }
    hmatch (fun j hj => rfl)
  rw [ho]
  simp only [List.nil_append]
  rw [List.filterMap_eq_nil_iff]
  intro e he
  have he2 : e ∈ (createdNodes p u gen 0 0 content).map
      (fun b => (b.order, b)) := by
    rw [← hpairs]
    exact he
  rcases List.mem_map.mp he2 with ⟨b, hb, rfl⟩
  rcases createdNodes_order p u gen content 0 0 b hb with ⟨j, hj1, hj2, hj3⟩
  have hjmem := hp3 j (by omega) (by omega)
  have hany : ((syncLoop w p u gen
      (buildMap (createdNodes p u gen 0 0 content))
      (sortByOrder (List.filter (fun b => decide (b.type = "paragraph"))
        (createdNodes p u gen 0 0 content)))
      { processedOrders := [], operations := [], cache := emptyCache,
        nextId := 0 } 0 content).processedOrders).any
      (fun q => decide (|(b.order, b).1 - q| < 1/10000)) = true := by
    rw [List.any_eq_true]
    refine ⟨(j : ℚ), hjmem, ?_⟩
    simp only [hj3, sub_self, abs_zero, decide_eq_true_eq]
    norm_num
  unfold cleanupEntry
  rw [if_pos hany]



/-- C2 counterexample: immediately re-syncing the unchanged snapshot
`[{paragraph:"A"}]` against the very block set the first sync produced
emits one Update (the cache-hit branch pushes unconditionally), not zero
operations as the claim states. -/
theorem c2_second_sync_emits_update_cex :
    (syncPageBlocks "w" "p" [ContentItem.paragraph (some "A")] "u" none
      (applyOps []
        (syncPageBlocks "w" "p" [ContentItem.paragraph (some "A")] "u" none
          [] emptyCache genStub).operations)
      (syncPageBlocks "w" "p" [ContentItem.paragraph (some "A")] "u" none
        [] emptyCache genStub).cache
      genStub).operations =
      [Operation.update "blk_0" "w" { text := some "A" }] := by
  have h1 : (syncPageBlocks "w" "p" [ContentItem.paragraph (some "A")] "u"
      none [] emptyCache genStub).operations =
      [Operation.create "blk_0" "w"
        { type := "paragraph", text := "A", parentId := "p", order := 0,
          refs := [], createdBy := "u", ver := 1 }] := by
    rfl
  have h2 : (syncPageBlocks "w" "p" [ContentItem.paragraph (some "A")] "u"
      none [] emptyCache genStub).cache =
      setBlockId emptyCache "p" 0 "blk_0" := by
    rfl
  rw [h1, h2]
  rw [show applyOps []
      [Operation.create "blk_0" "w"
        { type := "paragraph", text := "A", parentId := "p", order := 0,
          refs := [], createdBy := "u", ver := 1 }] =
      [{ id := "blk_0", type := "paragraph", text := some "A",
         parentId := "p", order := 0 }] from rfl]
  exact (sync_single_cached "w" "p" "u" genStub
    (setBlockId emptyCache "p" 0 "blk_0")
    [{ id := "blk_0", type := "paragraph", text := some "A",
       parentId := "p", order := 0 }]
    "blk_0" "A" none (by rfl) (by decide)
    (by
      intro b hb
      simp only [List.mem_singleton] at hb
      subst hb
      norm_num)).1

/-- Witness for C2 at a concrete two-item snapshot. -/
theorem c2_noop_second_sync_amended_witness :
    (syncPageBlocks "w" "p"
      [ContentItem.paragraph (some "A"), ContentItem.bulletList ["x", "y"]]
      "u" none
      (applyOps []
        (syncPageBlocks "w" "p"
          [ContentItem.paragraph (some "A"),
           ContentItem.bulletList ["x", "y"]]
          "u" none [] emptyCache genStub).operations)
      emptyCache genStub).operations = [] :=
  c2_noop_second_sync_amended "w" "p" "u" genStub
    [ContentItem.paragraph (some "A"), ContentItem.bulletList ["x", "y"]]
    none none (by decide)

end Athena
